import Mathlib

/-!
Verification of the ordered-list ordinal-continuity normalizer.

The repository contains two near-duplicate Lexical plugin files implementing a
normalization pass for the start ordinals of adjacent root-level ordered lists:

* `src/unnamed/part_000` — the variant with an explicit hot/cold boundary
  evaluation step (`evaluateListBoundary`);
* `src/src/plugins/OrderedListOrdinalContinuityNormalizerPlugin/index.tsx` —
  the variant without that step (every adjacent pair yields a plan).

This file is a shallow embedding of these programs.  Document trees are pure
data (`LNode`); Lexical node keys become an explicit `key` field of list nodes;
JavaScript numbers that the source guards with `Number.isFinite` become
`Option Int` (with `none` standing for a missing / non-finite reading);
`Map`/`Set` values become association lists / lists of keys, built in the same
order as the source builds them; the zero-argument write thunks
`() => list.setStart(start)` become explicit `(key, start)` write actions, and
executing the thunks becomes `applyWrites`.

Definitions whose names clash between the two source files carry a `B` suffix
for the `index.tsx` variant (`deriveCascadedOrdinalContinuityPlansB`, …).
-/

/-- The Lexical list kind tag (`ListNode.getListType()`): `number`, `bullet`
or `check`. -/
inductive LexListType where
  | number : LexListType
  | bullet : LexListType
  | check : LexListType
deriving DecidableEq, Repr

mutual

/-- A node of the document tree.  `listNode key listType start children` embeds
a Lexical `ListNode` (the `key` is the Lexical node key, `start` its start
ordinal, `none` = non-finite); `listItem value children` embeds a
`ListItemNode` with its observed ordinal `value`; `rootNode` embeds the editor
`RootNode`; `other` stands for any other block (paragraph, quote, …). -/
inductive LNode where
  | listNode : Nat → LexListType → Option Int → LForest → LNode
  | listItem : Option Int → LForest → LNode
  | rootNode : LForest → LNode
  | other : LNode

/-- A sequence of sibling nodes (children list of a node). -/
inductive LForest where
  | nil : LForest
  | cons : LNode → LForest → LForest

end

/-- Convert a children sequence to a `List` so that ordinary list operations
(`head?`, `getLast?`, `filter`) can model the Lexical child getters. -/
def LForest.toList : LForest → List LNode
  | .nil => []
  | .cons n f => n :: LForest.toList f

/-- The children of a node (`getChildren()`). -/
def LNode.childNodes : LNode → List LNode
  | .listNode _ _ _ cs => cs.toList
  | .listItem _ cs => cs.toList
  | .rootNode cs => cs.toList
  | .other => []

/-- Embeds `$isListNode`. -/
def isListNode : LNode → Bool
  | .listNode _ _ _ _ => true
  | _ => false

/-- Embeds `$isListItemNode`. -/
def isListItemNode : LNode → Bool
  | .listItem _ _ => true
  | _ => false

/-- Embeds `$isRootNode`. -/
def isRootNode : LNode → Bool
  | .rootNode _ => true
  | _ => false

/-- Embeds `ListNode.getStart()`; `none` models a non-finite reading.  Never
called on non-lists by the source. -/
def getStart : LNode → Option Int
  | .listNode _ _ s _ => s
  | _ => none

/-- Embeds `ListItemNode.getValue()`; `none` models a missing / non-finite
reading. -/
def getValue : LNode → Option Int
  | .listItem v _ => v
  | _ => none

/-- Embeds `LexicalNode.getKey()` for list nodes. -/
def getKey : LNode → Nat
  | .listNode k _ _ _ => k
  | _ => 0

/-- Embeds `const isNumberedList = (list) => list.getListType() === 'number'`. -/
def isNumberedList : LNode → Bool
  | .listNode _ .number _ _ => true
  | _ => false

mutual

/-- Size of a node, used as fuel for the edge traversal. -/
def nodeSize : LNode → Nat
  | .listNode _ _ _ cs => forestSize cs + 1
  | .listItem _ cs => forestSize cs + 1
  | .rootNode cs => forestSize cs + 1
  | .other => 1

/-- Size of a children sequence. -/
def forestSize : LForest → Nat
  | .nil => 0
  | .cons n f => nodeSize n + forestSize f

end

/-- The traversal edge: `'leading' | 'trailing'`. -/
inductive Edge where
  | leading : Edge
  | trailing : Edge
deriving DecidableEq, Repr

/-- The edge selector applied to a sequence of candidates: `getFirstChild()` /
`.at(0)` for the leading edge, `getLastChild()` / `.at(-1)` for the trailing
edge. -/
def edgePick (e : Edge) (cs : List LNode) : Option LNode :=
  match e with
  | .leading => cs.head?
  | .trailing => cs.getLast?

/-- The `Spine` record: visited boundary items and visited lists, both ordered
from depth 0 downward. -/
structure Spine where
  listItems : List LNode
  lists : List LNode


/-- Fuel-indexed body of `traverseEdge`.  The fuel only serves termination;
`traverseEdge` always supplies enough of it (`nodeSize`), so the `0` branch is
unreachable from the wrapper. -/
def traverseEdgeF : Nat → LNode → Edge → Spine
  | 0, _, _ => ⟨[], []⟩
  | fuel + 1, l, e =>
    match l with
    | .listNode k t s cs =>
      match edgePick e cs.toList with
      | some (.listItem v ics) =>
        match edgePick e (ics.toList.filter isListNode) with
        | some nested =>
          let rest := traverseEdgeF fuel nested e
          ⟨.listItem v ics :: rest.listItems, .listNode k t s cs :: rest.lists⟩
        | none => ⟨[.listItem v ics], [.listNode k t s cs]⟩
      | _ => ⟨[], [.listNode k t s cs]⟩
    | _ => ⟨[], []⟩

/-- Embeds `traverseEdge(rootList, edge)`: walk the root list down through
nested lists along one structural edge, recording the edge list item of each
visited list and descending into the edge-positioned nested list child of that
item. -/
def traverseEdge (l : LNode) (e : Edge) : Spine :=
  traverseEdgeF (nodeSize l) l e

/-- The `RootListSpines` record of one root-level list. -/
structure RootListSpines where
  rootList : LNode
  leading : Spine
  trailing : Spine


/-- Both spines of one root-level list (the loop body of
`traverseAllListEdges`). -/
def rootListSpines (n : LNode) : RootListSpines :=
  ⟨n, traverseEdge n .leading, traverseEdge n .trailing⟩

/-- Embeds `traverseAllListEdges(lexicalRoot)`: keep only the list children of
the root, in document order, and extract both spines of each. -/
def traverseAllListEdges (blocks : List LNode) : List RootListSpines :=
  (blocks.filter isListNode).map rootListSpines

/-- Embeds `pairSoftAdjacentListEdges`: pair every root-level list with the
next one in the filtered sequence. -/
def pairSoftAdjacentListEdges :
    List RootListSpines → List (RootListSpines × RootListSpines)
  | a :: b :: rest => (a, b) :: pairSoftAdjacentListEdges (b :: rest)
  | _ => []

/-- Embeds `pairAdjacentListEdges` of the `index.tsx` variant, whose body is
identical to `pairSoftAdjacentListEdges`. -/
def pairAdjacentListEdges :
    List RootListSpines → List (RootListSpines × RootListSpines) :=
  pairSoftAdjacentListEdges

/-- Embeds the local `commonMaximumDepth`:
`min(previous.trailing.lists.length, next.leading.lists.length) - 1`. -/
def commonMaximumDepth (previousSpine nextSpine : RootListSpines) : Int :=
  (min previousSpine.trailing.lists.length nextSpine.leading.lists.length : Nat)
    - 1

/-- Embeds the local `maximumDepthInPreviousSpine`:
`previous.trailing.lists.length - 1`. -/
def maximumDepthInPreviousSpine (previousSpine : RootListSpines) : Int :=
  (previousSpine.trailing.lists.length : Int) - 1

/-- Embeds the recursive `findDeepestLinkableDepth`.  The source counts an
`Int` depth down to `-1`; here the `Nat` argument is that depth plus one, so
`findDeepestLinkableDepth prev next (d + 1)` inspects depth `d` first and
`findDeepestLinkableDepth prev next 0` is the `depth < 0 → -1` base case.  The
top-level call with `commonMaximumDepth + 1 = min(len, len)` is made by
`computeExpectedStartsByDepthForLink`.  `bothListsAreNumbered` is the loop
body's test (`bothListsAreNumbered` in `part_000`, `bothListsAreNumberedList`
in `index.tsx`): the spine lists of both sides at this depth are numbered. -/
def bothListsAreNumbered (prevLists nextLists : List LNode) (depth : Nat) :
    Bool :=
  isNumberedList (prevLists.getD depth .other)
    && isNumberedList (nextLists.getD depth .other)

def findDeepestLinkableDepth (prevLists nextLists : List LNode) : Nat → Int
  | 0 => -1
  | d + 1 =>
    if bothListsAreNumbered prevLists nextLists d then
      (d : Int)
    else
      findDeepestLinkableDepth prevLists nextLists d

/-- The per-depth body of the `linkedDepths.map` arrow inside
`computeExpectedStartsByDepthForLink`: read the previous trailing boundary
item's value at this depth, keep it when valid (finite and positive),
increment it exactly at the deepest linked depth when that depth is also the
deepest depth of the previous trailing spine, and emit `0` (to be filtered
out) when the reading is invalid. -/
def expectedStartAtDepth (previousSpine : RootListSpines)
    (deepestLinkDepth : Int) (currentDepth : Nat) : Int :=
  let previousLastValue :=
    (previousSpine.trailing.listItems[currentDepth]?).bind getValue
  let isLinkedAtMaximumDepth :=
    maximumDepthInPreviousSpine previousSpine == deepestLinkDepth
  let currentDepthIsDeepestLinkedDepth := (currentDepth : Int) == deepestLinkDepth
  let requiresIncrementAtThisDepth :=
    isLinkedAtMaximumDepth && currentDepthIsDeepestLinkedDepth
  match previousLastValue with
  | some p =>
    if 0 < p then (if requiresIncrementAtThisDepth then p + 1 else p) else 0
  | none => 0

/-- Embeds `computeExpectedStartsByDepthForLink(previousSpine, nextSpine)`:
the depth → expected-start mapping of one boundary, as an association list in
increasing depth order (the order the source inserts into its `Map`). -/
def computeExpectedStartsByDepthForLink
    (previousSpine nextSpine : RootListSpines) : List (Nat × Int) :=
  let deepestLinkDepth :=
    findDeepestLinkableDepth previousSpine.trailing.lists
      nextSpine.leading.lists
      (min previousSpine.trailing.lists.length nextSpine.leading.lists.length)
  let linkedDepths :=
    if deepestLinkDepth < 0 then ([] : List Nat)
    else List.range (deepestLinkDepth.toNat + 1)
  (linkedDepths.map
      (fun currentDepth =>
        (currentDepth, expectedStartAtDepth previousSpine deepestLinkDepth
          currentDepth))).filter
    (fun e => 0 < e.2)

/-- Embeds `ListBoundaryEvaluation`: a boundary is `cold` (no continuity
intent) or `hot` carrying its expected-starts mapping.  The `BROKEN` state of
`LIST_BOUNDARY_STATE` is declared by the source for future use and never
produced. -/
inductive ListBoundaryEvaluation where
  | cold : ListBoundaryEvaluation
  | hot : List (Nat × Int) → ListBoundaryEvaluation
deriving DecidableEq, Repr

/-- Embeds `evaluateListBoundary(previousSpine, nextSpine)`: cold when the
expected-starts mapping is empty, otherwise hot exactly when some mapped depth
of the next list's leading spine currently has a finite start different from
`1`.  `boundaryHotAtDepth` is the `.some(...)` callback: the per-entry check
that the next list at a mapped depth carries a non-default start
(`!Number.isFinite(currentStart) || currentStart === 1` → not hot). -/
def boundaryHotAtDepth (nextSpine : RootListSpines) (e : Nat × Int) : Bool :=
  match nextSpine.leading.lists[e.1]? with
  | none => false
  | some nextListAtDepth =>
    match getStart nextListAtDepth with
    | none => false
    | some currentStart => currentStart != 1

def evaluateListBoundary (previousSpine nextSpine : RootListSpines) :
    ListBoundaryEvaluation :=
  let expectedStartsByDepth :=
    computeExpectedStartsByDepthForLink previousSpine nextSpine
  if expectedStartsByDepth.isEmpty then .cold
  else
    if expectedStartsByDepth.any (boundaryHotAtDepth nextSpine) then
      .hot expectedStartsByDepth
    else .cold

/-- Embeds `OrdinalContinuityPlan`.  `startsByDepth` is the depth → target
start `Map` as an association list (insertion order preserved), and
`appliedDepths` the `Set` of depths where continuity applies, as a list of
keys. -/
structure OrdinalContinuityPlan where
  appliedDepths : List Nat
  linkDepth : Int
  linkedDepths : List Nat
  startsByDepth : List (Nat × Int)
  leadingLists : List LNode
  trailingLists : List LNode


/-- Insertion of one key into a sorted list of depths; models one step of the
source's `Array.prototype.sort((a, b) => a - b)` on depth keys. -/
def insertDepth (d : Nat) : List Nat → List Nat
  | [] => [d]
  | x :: xs => if d ≤ x then d :: x :: xs else x :: insertDepth d xs

/-- Models `Array.from(map.keys()).sort((a, b) => a - b)`: sort the depth keys
in increasing order (insertion sort — the source's comparison sort applied to
the key array). -/
def sortDepths : List Nat → List Nat
  | [] => []
  | x :: xs => insertDepth x (sortDepths xs)

/-- Embeds `deriveChainedOrdinalContinuityPlanFromExpectedStarts(nextSpine,
expectedStartsByDepth)` of the `part_000` variant: the plan of a hot boundary,
derived from the expected-starts mapping as single source of truth. -/
def deriveChainedOrdinalContinuityPlanFromExpectedStarts
    (nextSpine : RootListSpines) (expectedStartsByDepth : List (Nat × Int)) :
    OrdinalContinuityPlan :=
  let linkedDepths := sortDepths (expectedStartsByDepth.map Prod.fst)
  let linkDepth :=
    linkedDepths.foldl (fun mx d => if (d : Int) > mx then (d : Int) else mx)
      (-1)
  let startsByDepth := expectedStartsByDepth
  let appliedDepths := startsByDepth.map Prod.fst
  { appliedDepths := appliedDepths
    leadingLists := nextSpine.leading.lists
    linkDepth := linkDepth
    linkedDepths := linkedDepths
    startsByDepth := startsByDepth
    trailingLists := nextSpine.trailing.lists }

/-- The `plan.startsByDepth.forEach` body of
`deriveCascadedOrdinalContinuityPlans`, common to both variants: rewrite each
entry of the current plan's mapping, inheriting the previous plan's value at a
depth exactly when the previous plan applied continuity there and its value is
strictly greater (the `lastStart ?? NaN` read makes a depth absent from the
previous mapping a no-op).  `cascadeEntry` is the rewrite of one `Map` entry;
`cascadeInto` applies it to every entry of the current plan's mapping. -/
def cascadeEntry (previousPlan : OrdinalContinuityPlan) (e : Nat × Int) :
    Nat × Int :=
  match List.lookup e.1 previousPlan.startsByDepth with
  | none => e
  | some lastStart =>
    if previousPlan.appliedDepths.contains e.1 && lastStart > e.2 then
      (e.1, lastStart)
    else e

def cascadeInto (previousPlan plan : OrdinalContinuityPlan) :
    OrdinalContinuityPlan :=
  { plan with
    startsByDepth := plan.startsByDepth.map (cascadeEntry previousPlan) }

/-- The `reduce` loop of `deriveCascadedOrdinalContinuityPlans` (`part_000`
variant): `prev` is the last pushed plan (`plans.at(-1) ?? null`); a `null`
current plan or a `null` previous plan breaks the cascade chain. -/
def cascadeGo (prev : Option OrdinalContinuityPlan) :
    List (Option OrdinalContinuityPlan) → List (Option OrdinalContinuityPlan)
  | [] => []
  | p :: rest =>
    match prev, p with
    | some previousPlan, some plan =>
      let plan' := cascadeInto previousPlan plan
      some plan' :: cascadeGo (some plan') rest
    | _, _ => p :: cascadeGo p rest

/-- Embeds `deriveCascadedOrdinalContinuityPlans` of the `part_000` variant
(the sequence may contain `null` entries for cold boundaries). -/
def deriveCascadedOrdinalContinuityPlans
    (chainedOrdinalContinuityPlans : List (Option OrdinalContinuityPlan)) :
    List (Option OrdinalContinuityPlan) :=
  cascadeGo none chainedOrdinalContinuityPlans

/-- One write action: set the list node with this key to this start ordinal
(the `() => list.setStart(start)` thunk of the source, with the target list
identified by its node key). -/
abbrev WriteAction := Nat × Int

/-- The per-depth body of the inner reduce of the normalization step: emit a
write action when the leading-spine list at this depth is a numbered list, the
target start is positive, and the current start differs from the target. -/
def normalizationAtDepth (plan : OrdinalContinuityPlan) (depth : Nat) :
    Option WriteAction :=
  let list := plan.leadingLists.getD depth .other
  let start := (List.lookup depth plan.startsByDepth).getD 0
  if !isNumberedList list || start ≤ 0 then none
  else
    match getStart list with
    | some currentStart => if currentStart == start then none
        else some (getKey list, start)
    | none => some (getKey list, start)

/-- The per-plan inner reduce over `plan.linkedDepths` of the normalization
step, common to both variants. -/
def planNormalizations (plan : OrdinalContinuityPlan) : List WriteAction :=
  plan.linkedDepths.foldl
    (fun listStartSetters depth =>
      match normalizationAtDepth plan depth with
      | some w => listStartSetters ++ [w]
      | none => listStartSetters)
    []

/-- The `if (!plan) return allPlanNormalizations` guard of the `part_000`
variant's outer reduce: a `null` (cold) entry contributes no write actions. -/
def optPlanNormalizations : Option OrdinalContinuityPlan → List WriteAction
  | some plan => planNormalizations plan
  | none => []

/-- The `chainedOrdinalContinuityPlans` stage of the `part_000` variant's
`computeOrderedListOrdinalContinuityNormalizations`: evaluate every adjacent
boundary, keeping a plan for hot boundaries and `null` for cold ones. -/
def chainedPlansOfBlocks (blocks : List LNode) :
    List (Option OrdinalContinuityPlan) :=
  (pairSoftAdjacentListEdges (traverseAllListEdges blocks)).map
    (fun pr =>
      match evaluateListBoundary pr.1 pr.2 with
      | .hot expectedStartsByDepth =>
        some (deriveChainedOrdinalContinuityPlanFromExpectedStarts pr.2
          expectedStartsByDepth)
      | .cold => none)

/-- Embeds `computeOrderedListOrdinalContinuityNormalizations(rootNode)` of
the `part_000` variant: traverse, pair, evaluate each boundary, cascade, and
emit the write actions of every non-null plan in order. -/
def computeOrderedListOrdinalContinuityNormalizations (blocks : List LNode) :
    List WriteAction :=
  ((deriveCascadedOrdinalContinuityPlans (chainedPlansOfBlocks blocks)).map
      optPlanNormalizations).flatten

/-- Embeds `deriveChainedOrdinalContinuityPlan(previousSpine, nextSpine)` of
the `index.tsx` variant: every adjacent pair yields a plan (no hot/cold
evaluation); `linkedDepths` and `appliedDepths` are the full `0 ..
deepestLinkDepth` range, while `startsByDepth` drops invalid depths. -/
def deriveChainedOrdinalContinuityPlan
    (previousSpine nextSpine : RootListSpines) : OrdinalContinuityPlan :=
  let deepestLinkDepth :=
    findDeepestLinkableDepth previousSpine.trailing.lists
      nextSpine.leading.lists
      (min previousSpine.trailing.lists.length nextSpine.leading.lists.length)
  let linkedDepths :=
    if deepestLinkDepth < 0 then ([] : List Nat)
    else List.range (deepestLinkDepth.toNat + 1)
  let startsByDepth :=
    (linkedDepths.map
        (fun currentDepth =>
          (currentDepth, expectedStartAtDepth previousSpine deepestLinkDepth
            currentDepth))).filter
      (fun e => 0 < e.2)
  let appliedDepths := linkedDepths
  { appliedDepths := appliedDepths
    leadingLists := nextSpine.leading.lists
    linkDepth := deepestLinkDepth
    linkedDepths := linkedDepths
    startsByDepth := startsByDepth
    trailingLists := nextSpine.trailing.lists }

/-- The `reduce` loop of the `index.tsx` variant's
`deriveCascadedOrdinalContinuityPlans` (no `null` entries). -/
def cascadeGoB (prev : Option OrdinalContinuityPlan) :
    List OrdinalContinuityPlan → List OrdinalContinuityPlan
  | [] => []
  | plan :: rest =>
    match prev with
    | some previousPlan =>
      let plan' := cascadeInto previousPlan plan
      plan' :: cascadeGoB (some plan') rest
    | none => plan :: cascadeGoB (some plan) rest

/-- Embeds `deriveCascadedOrdinalContinuityPlans` of the `index.tsx`
variant. -/
def deriveCascadedOrdinalContinuityPlansB
    (chainedOrdinalContinuityPlans : List OrdinalContinuityPlan) :
    List OrdinalContinuityPlan :=
  cascadeGoB none chainedOrdinalContinuityPlans

/-- Embeds `computeOrderedListOrdinalContinuityNormalizations(rootNode)` of
the `index.tsx` variant: traverse, pair, derive a plan for every pair (no
hot/cold evaluation), cascade, and emit every plan's write actions in
order. -/
def computeOrderedListOrdinalContinuityNormalizationsB
    (blocks : List LNode) : List WriteAction :=
  ((deriveCascadedOrdinalContinuityPlansB
        ((pairAdjacentListEdges (traverseAllListEdges blocks)).map
          (fun pr => deriveChainedOrdinalContinuityPlan pr.1 pr.2))).map
      planNormalizations).flatten

/-- The guard chain of `registerOrderedListOrdinalContinuityNormalizer`'s node
transform: the touched list must be numbered; it must be a root-level list
(`parents.length === 1`) or nested with the editor root as last parent and a
list node as second-to-last parent (`parents.at(-1)` / `parents.at(-2)`); and
every list node among its parents must be numbered. -/
def listTransformGuard (maybeDirtyList : LNode) (parents : List LNode) : Bool :=
  isNumberedList maybeDirtyList
    && (let root := parents.getLast?
        let rootChild := parents.dropLast.getLast?
        let isRootLevelListNode := parents.length == 1
        let isNestedWithinRootLevelListNode :=
          decide (2 ≤ parents.length)
            && (match root with
                | some r => isRootNode r
                | none => false)
            && (match rootChild with
                | some rc => isListNode rc
                | none => false)
        isNestedWithinRootLevelListNode || isRootLevelListNode)
    && (parents.filter isListNode).all isNumberedList

/-- Embeds the node-transform body registered by
`registerOrderedListOrdinalContinuityNormalizer`: when every guard holds, run
the full pipeline on the root's children and return its write actions;
otherwise do nothing (`[]`, a pure no-op). -/
def listTransform (maybeDirtyList : LNode) (parents : List LNode)
    (blocks : List LNode) : List WriteAction :=
  if listTransformGuard maybeDirtyList parents then
    computeOrderedListOrdinalContinuityNormalizations blocks
  else []

mutual

/-- Embeds `list.setStart(start)` executed on the list node with key `k`:
rewrite the start ordinal of every list node carrying that key (in a
well-keyed document, exactly the targeted node). -/
def setStartByKeyNode (k : Nat) (s : Int) : LNode → LNode
  | .listNode k' t st cs =>
    .listNode k' t (if k' = k then some s else st) (setStartByKeyForest k s cs)
  | .listItem v cs => .listItem v (setStartByKeyForest k s cs)
  | .rootNode cs => .rootNode (setStartByKeyForest k s cs)
  | .other => .other

/-- `setStartByKeyNode` mapped over a children sequence. -/
def setStartByKeyForest (k : Nat) (s : Int) : LForest → LForest
  | .nil => .nil
  | .cons n f => .cons (setStartByKeyNode k s n) (setStartByKeyForest k s f)

end

/-- Execute a sequence of write actions on one node, in order. -/
def applyNode (ws : List WriteAction) (n : LNode) : LNode :=
  ws.foldl (fun m w => setStartByKeyNode w.1 w.2 m) n

/-- Execute a sequence of write actions on the document (the
`normalizations.forEach((normalization) => normalization())` step). -/
def applyWrites (blocks : List LNode) (ws : List WriteAction) : List LNode :=
  ws.foldl (fun bs w => bs.map (setStartByKeyNode w.1 w.2)) blocks

mutual

/-- All list-node keys occurring in a node's subtree, the node included. -/
def nodeKeys : LNode → List Nat
  | .listNode k _ _ cs => k :: forestKeys cs
  | .listItem _ cs => forestKeys cs
  | .rootNode cs => forestKeys cs
  | .other => []

/-- All list-node keys occurring in a children sequence. -/
def forestKeys : LForest → List Nat
  | .nil => []
  | .cons n f => nodeKeys n ++ forestKeys f

end

/-- A document whose list-node keys are pairwise distinct — the standard
Lexical invariant that node keys are unique, under which a write action
targets exactly one list node. -/
def WellKeyed (blocks : List LNode) : Prop :=
  ((blocks.map nodeKeys).flatten).Nodup

/-- Build a children sequence from a list (helper for concrete documents). -/
def LForest.ofList (l : List LNode) : LForest := l.foldr .cons .nil

/-- The specification of one edge traversal, transcribed from the claim: at
each step the edge child of the current list is read and recorded if it is a
list item (stopping otherwise), the edge-positioned list among the item's
direct list children is selected as next list, and the walk stops when no such
nested list exists.  `SpineSpec e root items lists` says that `items` and
`lists` are the boundary items and lists such a walk visits from `root`,
ordered from depth 0 downward. -/
inductive SpineSpec (e : Edge) : LNode → List LNode → List LNode → Prop where
  | stop : ∀ k t s cs,
      (∀ n, edgePick e (LForest.toList cs) = some n → isListItemNode n = false) →
      SpineSpec e (.listNode k t s cs) [] [.listNode k t s cs]
  | last : ∀ k t s cs v ics,
      edgePick e (LForest.toList cs) = some (.listItem v ics) →
      edgePick e ((LForest.toList ics).filter isListNode) = none →
      SpineSpec e (.listNode k t s cs) [.listItem v ics] [.listNode k t s cs]
  | step : ∀ k t s cs v ics nested items lists,
      edgePick e (LForest.toList cs) = some (.listItem v ics) →
      edgePick e ((LForest.toList ics).filter isListNode) = some nested →
      SpineSpec e nested items lists →
      SpineSpec e (.listNode k t s cs) (.listItem v ics :: items)
        (.listNode k t s cs :: lists)

/-- Two flat numbered lists whose second list keeps the default start `1`:
the `part_000` variant classifies the single boundary cold and writes nothing,
while the `index.tsx` variant (which has no boundary evaluation) rewrites the
second list's start to `4`. -/
def docTwoFlat : List LNode :=
  [ .listNode 10 .number (some 1) (LForest.ofList [.listItem (some 3) .nil]),
    .listNode 11 .number (some 1) (LForest.ofList [.listItem (some 1) .nil]) ]

/-- Two flat numbered lists `1,2,3` and a second list with a user-set start of
`7` (spec scenario 1): the boundary is hot and both variants write start `4`
to the second list. -/
def docHotFlat : List LNode :=
  [ .listNode 10 .number (some 1) (LForest.ofList
      [.listItem (some 1) .nil, .listItem (some 2) .nil,
       .listItem (some 3) .nil]),
    .listNode 11 .number (some 7) (LForest.ofList [.listItem (some 1) .nil]) ]

/-- Depth-2 trailing list of `nodeB` (a bullet list, so depth 2 is never
linkable). -/
def nodeL2 : LNode :=
  .listNode 4 .bullet (some 1) (LForest.ofList [.listItem (some 1) .nil])

/-- Depth-1 trailing list of `nodeB`: numbered, last item value `1`. -/
def nodeL1 : LNode :=
  .listNode 3 .number (some 1)
    (LForest.ofList [.listItem (some 1) (LForest.ofList [nodeL2])])

/-- First root list of `docBCD`: numbered, one item of value `7`, trailing
spine `[nodeB, nodeL1, nodeL2]` of length 3. -/
def nodeB : LNode :=
  .listNode 2 .number (some 1)
    (LForest.ofList [.listItem (some 7) (LForest.ofList [nodeL1])])

/-- Leading depth-1 list of `nodeC`: numbered with a user-set start `5`. -/
def nodeCL1 : LNode :=
  .listNode 6 .number (some 5) (LForest.ofList [.listItem (some 1) .nil])

/-- Trailing depth-1 list of `nodeC`: numbered, last item value `6`. -/
def nodeCT1 : LNode :=
  .listNode 7 .number (some 1) (LForest.ofList [.listItem (some 6) .nil])

/-- Second root list of `docBCD`: a bullet list with two items, the first
holding `nodeCL1` and the second holding `nodeCT1`. -/
def nodeC : LNode :=
  .listNode 5 .bullet (some 1)
    (LForest.ofList
      [.listItem (some 1) (LForest.ofList [nodeCL1]),
       .listItem (some 2) (LForest.ofList [nodeCT1])])

/-- Leading depth-1 list of `nodeD`: numbered with start `5`. -/
def nodeDL1 : LNode :=
  .listNode 9 .number (some 5) (LForest.ofList [.listItem (some 1) .nil])

/-- Third root list of `docBCD`: numbered with a user-set start `3`. -/
def nodeD : LNode :=
  .listNode 8 .number (some 3)
    (LForest.ofList [.listItem (some 1) (LForest.ofList [nodeDL1])])

/-- A document of three root-level lists on which the `part_000` pipeline is
not idempotent: the first run writes `[(6, 1), (8, 7), (9, 7)]`; applying
those writes makes the first boundary flip from hot to cold (every mapped
depth of `nodeC` then shows the default start `1`), which breaks the cascade
chain, so the second run still emits the write `(8, 2)`. -/
def docBCD : List LNode := [nodeB, nodeC, nodeD]

/-- The document obtained by applying the first pipeline run's writes to
`docBCD`; its first boundary is cold (reset point) and its second is hot. -/
def docBCDSecond : List LNode :=
  applyWrites docBCD (computeOrderedListOrdinalContinuityNormalizations docBCD)

/-- Three numbered root lists with an interposed paragraph: used to exercise
the soft-adjacency pairing. -/
def docPara : List LNode :=
  [ .listNode 20 .number (some 1) (LForest.ofList [.listItem (some 1) .nil]),
    .other,
    .listNode 21 .number (some 1) (LForest.ofList [.listItem (some 1) .nil]),
    .listNode 22 .number (some 1) (LForest.ofList [.listItem (some 1) .nil]) ]

/-- A concrete plan used to exercise the cascade lemmas. -/
def demoPrevPlan : OrdinalContinuityPlan :=
  { appliedDepths := [0]
    linkDepth := 0
    linkedDepths := [0]
    startsByDepth := [(0, 7)]
    leadingLists := []
    trailingLists := [] }

/-- A second concrete plan whose depth-0 value is smaller than
`demoPrevPlan`'s, so the cascade overwrites it. -/
def demoCurrPlan : OrdinalContinuityPlan :=
  { appliedDepths := [0]
    linkDepth := 0
    linkedDepths := [0]
    startsByDepth := [(0, 2)]
    leadingLists := []
    trailingLists := [] }

/-- The editor root holding `docBCD`, used as the parent chain of a root-level
list in the trigger-guard examples. -/
def rootOfDocBCD : LNode := .rootNode (LForest.ofList docBCD)

/-- Statement apparatus for the variant-equivalence analysis: every depth
present in a plan's mapping is in its applied-depth set (true of the plans
both variants build). -/
def PlanKeysApplied (p : OrdinalContinuityPlan) : Prop :=
  ∀ d : Nat, (List.lookup d p.startsByDepth).isSome = true →
    p.appliedDepths.contains d = true

/-- Statement apparatus for the variant-equivalence analysis: the relation
between the cascade accumulators of the two variants as they walk the same
boundary sequence — both fresh, or the `index.tsx` side holding an
empty-mapping plan where the `part_000` side holds a break, or both holding
plans with identical mappings whose keys are applied. -/
def CascadeStateRel (prevA prevB : Option OrdinalContinuityPlan) : Prop :=
  (prevA = none ∧ prevB = none) ∨
  (prevA = none ∧ ∃ pb, prevB = some pb ∧ pb.startsByDepth = []) ∨
  (∃ pa pb, prevA = some pa ∧ prevB = some pb ∧
    pa.startsByDepth = pb.startsByDepth ∧
    PlanKeysApplied pa ∧ PlanKeysApplied pb)

/-- Every node has positive size. -/
theorem nodeSize_pos : ∀ l : LNode, 0 < nodeSize l
  | .listNode _ _ _ _ => by simp [nodeSize]
  | .listItem _ _ => by simp [nodeSize]
  | .rootNode _ => by simp [nodeSize]
  | .other => by simp [nodeSize]

/-- A member of a children sequence is no larger than the sequence. -/
theorem nodeSize_le_of_mem_toList :
    ∀ (f : LForest) {n : LNode}, n ∈ f.toList → nodeSize n ≤ forestSize f
  | .nil, n, h => by simp [LForest.toList] at h
  | .cons m f, n, h => by
    rcases List.mem_cons.mp (by simpa [LForest.toList] using h) with h | h
    · subst h; simp only [forestSize]; omega
    · have := nodeSize_le_of_mem_toList f h
      simp [forestSize]; omega

/-- The node an edge selector returns belongs to the candidate list. -/
theorem mem_of_edgePick {e : Edge} {cs : List LNode} {n : LNode}
    (h : edgePick e cs = some n) : n ∈ cs := by
  cases e with
  | leading => exact List.mem_of_mem_head? (by simpa [edgePick] using h)
  | trailing => exact List.mem_of_mem_getLast? (by simpa [edgePick] using h)

/-- The nested list the traversal descends into is strictly smaller than the
current list. -/
theorem nodeSize_nested_lt {e : Edge} {cs ics : LForest} {v : Option Int}
    {nested : LNode}
    (h1 : edgePick e cs.toList = some (.listItem v ics))
    (h2 : edgePick e (ics.toList.filter isListNode) = some nested) :
    ∀ k t s, nodeSize nested < nodeSize (.listNode k t s cs) := by
  intro k t s
  have hitem : (LNode.listItem v ics) ∈ cs.toList := mem_of_edgePick h1
  have h1' := nodeSize_le_of_mem_toList cs hitem
  have hnest : nested ∈ ics.toList :=
    (List.mem_filter.mp (mem_of_edgePick h2)).1
  have h2' := nodeSize_le_of_mem_toList ics hnest
  simp [nodeSize] at h1' ⊢
  omega

/-- Definitional successor equation of `traverseEdgeF` on a list node. -/
theorem traverseEdgeF_succ (g : Nat) (k : Nat) (t : LexListType)
    (s : Option Int) (cs : LForest) (e : Edge) :
    traverseEdgeF (g + 1) (.listNode k t s cs) e =
      match edgePick e cs.toList with
      | some (.listItem v ics) =>
        match edgePick e (ics.toList.filter isListNode) with
        | some nested =>
          ⟨.listItem v ics :: (traverseEdgeF g nested e).listItems,
           .listNode k t s cs :: (traverseEdgeF g nested e).lists⟩
        | none => ⟨[.listItem v ics], [.listNode k t s cs]⟩
      | _ => ⟨[], [.listNode k t s cs]⟩ := rfl

/-- `traverseEdgeF` when the edge child is absent. -/
theorem traverseEdgeF_succ_none {e : Edge} {cs : LForest}
    (h : edgePick e cs.toList = none) (g k t s) :
    traverseEdgeF (g + 1) (.listNode k t s cs) e =
      ⟨[], [.listNode k t s cs]⟩ := by
  rw [traverseEdgeF_succ, h]

/-- `traverseEdgeF` when the edge child is not a list item. -/
theorem traverseEdgeF_succ_notitem {e : Edge} {cs : LForest} {n : LNode}
    (h : edgePick e cs.toList = some n) (hn : isListItemNode n = false)
    (g k t s) :
    traverseEdgeF (g + 1) (.listNode k t s cs) e =
      ⟨[], [.listNode k t s cs]⟩ := by
  rw [traverseEdgeF_succ, h]
  cases n with
  | listItem v ics => simp [isListItemNode] at hn
  | listNode k' t' s' cs' => rfl
  | rootNode cs' => rfl
  | other => rfl

/-- `traverseEdgeF` when the edge item has no nested list child. -/
theorem traverseEdgeF_succ_item_nonest {e : Edge} {cs ics : LForest}
    {v : Option Int} (h : edgePick e cs.toList = some (.listItem v ics))
    (h2 : edgePick e (ics.toList.filter isListNode) = none) (g k t s) :
    traverseEdgeF (g + 1) (.listNode k t s cs) e =
      ⟨[.listItem v ics], [.listNode k t s cs]⟩ := by
  rw [traverseEdgeF_succ, h]
  dsimp only
  rw [h2]

/-- `traverseEdgeF` when the traversal descends into a nested list. -/
theorem traverseEdgeF_succ_item_nest {e : Edge} {cs ics : LForest}
    {v : Option Int} {nested : LNode}
    (h : edgePick e cs.toList = some (.listItem v ics))
    (h2 : edgePick e (ics.toList.filter isListNode) = some nested) (g k t s) :
    traverseEdgeF (g + 1) (.listNode k t s cs) e =
      ⟨.listItem v ics :: (traverseEdgeF g nested e).listItems,
       .listNode k t s cs :: (traverseEdgeF g nested e).lists⟩ := by
  rw [traverseEdgeF_succ, h]
  dsimp only
  rw [h2]

/-- Fuel irrelevance for `traverseEdgeF`: any fuel at least the node size
computes the same spine. -/
theorem traverseEdgeF_congr :
    ∀ (f1 f2 : Nat) (l : LNode) (e : Edge), nodeSize l ≤ f1 →
      nodeSize l ≤ f2 → traverseEdgeF f1 l e = traverseEdgeF f2 l e := by
  intro f1
  induction f1 using Nat.strong_induction_on with
  | _ f1 ih =>
    intro f2 l e h1 h2
    have hp := nodeSize_pos l
    obtain ⟨g1, rfl⟩ : ∃ g1, f1 = g1 + 1 := ⟨f1 - 1, by omega⟩
    obtain ⟨g2, rfl⟩ : ∃ g2, f2 = g2 + 1 := ⟨f2 - 1, by omega⟩
    cases l with
    | listNode k t s cs =>
      cases hpick : edgePick e cs.toList with
      | none => rw [traverseEdgeF_succ_none hpick, traverseEdgeF_succ_none hpick]
      | some n =>
        cases n with
        | listItem v ics =>
          cases hnest : edgePick e (ics.toList.filter isListNode) with
          | none =>
            rw [traverseEdgeF_succ_item_nonest hpick hnest,
              traverseEdgeF_succ_item_nonest hpick hnest]
          | some nested =>
            have hlt := nodeSize_nested_lt hpick hnest k t s
            have hsz : nodeSize (LNode.listNode k t s cs) = forestSize cs + 1 :=
              rfl
            rw [traverseEdgeF_succ_item_nest hpick hnest,
              traverseEdgeF_succ_item_nest hpick hnest]
            rw [hsz] at h1 h2 hlt
            rw [ih g1 (by omega) g2 nested e (by omega) (by omega)]
        | listNode k' t' s' cs' =>
          rw [traverseEdgeF_succ_notitem hpick rfl,
            traverseEdgeF_succ_notitem hpick rfl]
        | rootNode cs' =>
          rw [traverseEdgeF_succ_notitem hpick rfl,
            traverseEdgeF_succ_notitem hpick rfl]
        | other =>
          rw [traverseEdgeF_succ_notitem hpick rfl,
            traverseEdgeF_succ_notitem hpick rfl]
    | listItem v ics => rfl
    | rootNode cs => rfl
    | other => rfl

/-- `traverseEdge` on a list node whose edge child is absent. -/
theorem traverseEdge_none {e : Edge} {cs : LForest}
    (h : edgePick e cs.toList = none) (k t s) :
    traverseEdge (.listNode k t s cs) e = ⟨[], [.listNode k t s cs]⟩ :=
  traverseEdgeF_succ_none h (forestSize cs) k t s

/-- `traverseEdge` on a list node whose edge child is not a list item. -/
theorem traverseEdge_notitem {e : Edge} {cs : LForest} {n : LNode}
    (h : edgePick e cs.toList = some n) (hn : isListItemNode n = false)
    (k t s) :
    traverseEdge (.listNode k t s cs) e = ⟨[], [.listNode k t s cs]⟩ :=
  traverseEdgeF_succ_notitem h hn (forestSize cs) k t s

/-- `traverseEdge` on a list node whose edge item has no nested list child. -/
theorem traverseEdge_item_nonest {e : Edge} {cs ics : LForest}
    {v : Option Int} (h : edgePick e cs.toList = some (.listItem v ics))
    (h2 : edgePick e (ics.toList.filter isListNode) = none) (k t s) :
    traverseEdge (.listNode k t s cs) e =
      ⟨[.listItem v ics], [.listNode k t s cs]⟩ :=
  traverseEdgeF_succ_item_nonest h h2 (forestSize cs) k t s

/-- `traverseEdge` on a list node that descends into a nested list: the spine
is the current list and its edge item followed by the nested list's spine. -/
theorem traverseEdge_item_nest {e : Edge} {cs ics : LForest}
    {v : Option Int} {nested : LNode}
    (h : edgePick e cs.toList = some (.listItem v ics))
    (h2 : edgePick e (ics.toList.filter isListNode) = some nested) (k t s) :
    traverseEdge (.listNode k t s cs) e =
      ⟨.listItem v ics :: (traverseEdge nested e).listItems,
       .listNode k t s cs :: (traverseEdge nested e).lists⟩ := by
  have hlt := nodeSize_nested_lt h h2 k t s
  have hsz : nodeSize (LNode.listNode k t s cs) = forestSize cs + 1 := rfl
  show traverseEdgeF (nodeSize (LNode.listNode k t s cs)) _ _ = _
  rw [hsz, traverseEdgeF_succ_item_nest h h2]
  rw [hsz] at hlt
  rw [traverseEdgeF_congr (forestSize cs) (nodeSize nested) nested e
    (by omega) (le_refl _)]
  rfl

/-- On a non-list node the traversal is empty (unreachable in the source,
where the argument is typed `ListNode`). -/
theorem traverseEdge_of_not_list {l : LNode} (h : isListNode l = false)
    (e : Edge) : traverseEdge l e = ⟨[], []⟩ := by
  cases l with
  | listNode k t s cs => simp [isListNode] at h
  | listItem v cs =>
    show traverseEdgeF (nodeSize (.listItem v cs)) _ _ = _
    have hsz : nodeSize (LNode.listItem v cs) = forestSize cs + 1 := rfl
    rw [hsz]; rfl
  | rootNode cs =>
    show traverseEdgeF (nodeSize (.rootNode cs)) _ _ = _
    have hsz : nodeSize (LNode.rootNode cs) = forestSize cs + 1 := rfl
    rw [hsz]; rfl
  | other => rfl

/-- Indexing into the output of the pairer: the `i`-th pair consists of the
`i`-th and `(i+1)`-th elements of the input. -/
theorem pairSoftAdjacentListEdges_getElem? :
    ∀ (l : List RootListSpines) (i : Nat),
      (pairSoftAdjacentListEdges l)[i]? =
        match l[i]?, l[i + 1]? with
        | some a, some b => some (a, b)
        | _, _ => none
  | [], i => by cases i <;> rfl
  | [a], i => by cases i <;> simp [pairSoftAdjacentListEdges]
  | a :: b :: rest, 0 => by simp [pairSoftAdjacentListEdges]
  | a :: b :: rest, i + 1 => by
    have := pairSoftAdjacentListEdges_getElem? (b :: rest) i
    simpa [pairSoftAdjacentListEdges] using this

/-- The pairer yields one pair per consecutive couple: length is the input
length minus one. -/
theorem pairSoftAdjacentListEdges_length :
    ∀ l : List RootListSpines,
      (pairSoftAdjacentListEdges l).length = l.length - 1
  | [] => rfl
  | [a] => rfl
  | a :: b :: rest => by
    have := pairSoftAdjacentListEdges_length (b :: rest)
    simp [pairSoftAdjacentListEdges] at this ⊢
    omega

/-- Indexing into the spine-traversal stage: the `i`-th record is built from
the `i`-th list block of the filtered sequence. -/
theorem traverseAllListEdges_getElem? (blocks : List LNode) (i : Nat) :
    (traverseAllListEdges blocks)[i]? =
      ((blocks.filter isListNode)[i]?).map rootListSpines := by
  simp [traverseAllListEdges]

/-- Looking up a key in an association list built by mapping an
entry-rewriting function that preserves keys. -/
theorem lookup_map_entry (F : Nat × Int → Nat × Int)
    (hF : ∀ e, (F e).1 = e.1) :
    ∀ (l : List (Nat × Int)) (d : Nat),
      List.lookup d (l.map F) =
        (List.lookup d l).map (fun v => (F (d, v)).2) := by
  intro l
  induction l with
  | nil => intro d; rfl
  | cons a l ih =>
    intro d
    obtain ⟨x, v⟩ := a
    rcases hFxv : F (x, v) with ⟨y, w⟩
    have hx : y = x := by
      have := hF (x, v)
      rw [hFxv] at this
      exact this
    subst hx
    by_cases h : d = y
    · subst h
      simp [List.lookup, hFxv]
    · have h1 : (d == y) = false := by simp; omega
      simp [List.lookup, hFxv, h1, ih d]

/-- The keys of an association list are unchanged by an entry-rewriting
function that preserves keys. -/
theorem map_fst_map_entry (F : Nat × Int → Nat × Int)
    (hF : ∀ e, (F e).1 = e.1) (l : List (Nat × Int)) :
    (l.map F).map Prod.fst = l.map Prod.fst := by
  induction l with
  | nil => rfl
  | cons e l ih => simp [hF, ih]

/-- A key is in an association list's key set exactly when its lookup
succeeds. -/
theorem lookup_isSome_iff_mem_keys :
    ∀ (l : List (Nat × Int)) (d : Nat),
      (List.lookup d l).isSome = true ↔ d ∈ l.map Prod.fst := by
  intro l
  induction l with
  | nil => intro d; simp [List.lookup]
  | cons e l ih =>
    intro d
    by_cases h : d = e.1
    · subst h; simp [List.lookup]
    · have h1 : (d == e.1) = false := by simp; omega
      simp [List.lookup, h1, ih d, h]

/-- The entry rewriter of `cascadeInto` preserves keys. -/
theorem cascadeEntry_fst (previousPlan : OrdinalContinuityPlan)
    (e : Nat × Int) : (cascadeEntry previousPlan e).1 = e.1 := by
  unfold cascadeEntry
  cases h : List.lookup e.1 previousPlan.startsByDepth with
  | none => rfl
  | some lastStart =>
    dsimp only
    split
    · rfl
    · rfl

/-- Value of the cascaded mapping at one depth: the previous plan's value is
inherited exactly when the previous plan applied continuity at the depth and
its value is strictly greater; a depth absent from the previous mapping is
left unchanged. -/
theorem lookup_cascadeInto (previousPlan plan : OrdinalContinuityPlan)
    (d : Nat) :
    List.lookup d (cascadeInto previousPlan plan).startsByDepth =
      (List.lookup d plan.startsByDepth).map
        (fun s => (cascadeEntry previousPlan (d, s)).2) := by
  show List.lookup d (plan.startsByDepth.map _) = _
  rw [lookup_map_entry _ (cascadeEntry_fst previousPlan)]

/-- `cascadeInto` only rewrites `startsByDepth`, preserving its keys and every
other plan field. -/
theorem cascadeInto_fields (previousPlan plan : OrdinalContinuityPlan) :
    (cascadeInto previousPlan plan).appliedDepths = plan.appliedDepths ∧
    (cascadeInto previousPlan plan).linkDepth = plan.linkDepth ∧
    (cascadeInto previousPlan plan).linkedDepths = plan.linkedDepths ∧
    (cascadeInto previousPlan plan).leadingLists = plan.leadingLists ∧
    (cascadeInto previousPlan plan).trailingLists = plan.trailingLists ∧
    (cascadeInto previousPlan plan).startsByDepth.map Prod.fst =
      plan.startsByDepth.map Prod.fst :=
  ⟨rfl, rfl, rfl, rfl, rfl,
    map_fst_map_entry _ (cascadeEntry_fst previousPlan) _⟩

/-- The head of the cascade after a non-null previous plan. -/
theorem cascadeGo_head_some (p : OrdinalContinuityPlan)
    (plans : List (Option OrdinalContinuityPlan)) :
    (cascadeGo (some p) plans)[0]? =
      (plans[0]?).map (Option.map (cascadeInto p)) := by
  cases plans with
  | nil => rfl
  | cons x rest =>
    cases x with
    | none => simp [cascadeGo]
    | some q => simp [cascadeGo]

/-- The head of the cascade after a break (`null` previous plan). -/
theorem cascadeGo_head_none (plans : List (Option OrdinalContinuityPlan)) :
    (cascadeGo none plans)[0]? = plans[0]? := by
  cases plans with
  | nil => rfl
  | cons x rest => cases x <;> simp [cascadeGo]

/-- When the `i`-th cascaded entry is a plan `p`, the `(i+1)`-th cascaded
entry is the `(i+1)`-th input entry cascaded from `p` (a `null` input entry is
passed through). -/
theorem cascadeGo_succ_of_some :
    ∀ (prev : Option OrdinalContinuityPlan)
      (plans : List (Option OrdinalContinuityPlan)) (i : Nat)
      (p : OrdinalContinuityPlan),
      (cascadeGo prev plans)[i]? = some (some p) →
      (cascadeGo prev plans)[i + 1]? =
        (plans[i + 1]?).map (Option.map (cascadeInto p)) := by
  intro prev plans
  induction plans generalizing prev with
  | nil => intro i p h; simp [cascadeGo] at h
  | cons x rest ih =>
    intro i p h
    cases i with
    | zero =>
      cases prev with
      | some pr =>
        cases x with
        | none => simp [cascadeGo] at h
        | some q =>
          simp [cascadeGo] at h ⊢
          subst h
          simpa using cascadeGo_head_some _ rest
      | none =>
        cases x with
        | none => simp [cascadeGo] at h
        | some q =>
          simp [cascadeGo] at h ⊢
          subst h
          simpa using cascadeGo_head_some _ rest
    | succ i =>
      cases prev with
      | some pr =>
        cases x with
        | none =>
          simp only [cascadeGo] at h ⊢
          simpa using ih none i p (by simpa using h)
        | some q =>
          simp only [cascadeGo] at h ⊢
          simpa using ih _ i p (by simpa using h)
      | none =>
        cases x with
        | none =>
          simp only [cascadeGo] at h ⊢
          simpa using ih none i p (by simpa using h)
        | some q =>
          simp only [cascadeGo] at h ⊢
          simpa using ih (some q) i p (by simpa using h)

/-- The cascade keeps `null` (cold) entries exactly where the input has
them. -/
theorem cascadeGo_none_iff :
    ∀ (prev : Option OrdinalContinuityPlan)
      (plans : List (Option OrdinalContinuityPlan)) (i : Nat),
      (cascadeGo prev plans)[i]? = some none ↔ plans[i]? = some none := by
  intro prev plans
  induction plans generalizing prev with
  | nil => intro i; simp [cascadeGo]
  | cons x rest ih =>
    intro i
    cases i with
    | zero =>
      cases prev with
      | some pr => cases x <;> simp [cascadeGo]
      | none => cases x <;> simp [cascadeGo]
    | succ i =>
      cases prev with
      | some pr =>
        cases x with
        | none => simp only [cascadeGo]; simpa using ih none i
        | some q => simp only [cascadeGo]; simpa using ih _ i
      | none =>
        cases x with
        | none => simp only [cascadeGo]; simpa using ih none i
        | some q => simp only [cascadeGo]; simpa using ih (some q) i

/-- After a `null` (cold) cascaded entry, the next entry is passed through
unchanged: the cascade is reset. -/
theorem cascadeGo_succ_of_none :
    ∀ (prev : Option OrdinalContinuityPlan)
      (plans : List (Option OrdinalContinuityPlan)) (i : Nat),
      (cascadeGo prev plans)[i]? = some none →
      (cascadeGo prev plans)[i + 1]? = plans[i + 1]? := by
  intro prev plans
  induction plans generalizing prev with
  | nil => intro i h; simp [cascadeGo] at h
  | cons x rest ih =>
    intro i h
    cases i with
    | zero =>
      cases prev with
      | some pr =>
        cases x with
        | none =>
          simp only [cascadeGo]
          simpa using cascadeGo_head_none rest
        | some q => simp [cascadeGo] at h
      | none =>
        cases x with
        | none =>
          simp only [cascadeGo]
          simpa using cascadeGo_head_none rest
        | some q => simp [cascadeGo] at h
    | succ i =>
      cases prev with
      | some pr =>
        cases x with
        | none =>
          simp only [cascadeGo] at h ⊢
          simpa using ih none i (by simpa using h)
        | some q =>
          simp only [cascadeGo] at h ⊢
          simpa using ih _ i (by simpa using h)
      | none =>
        cases x with
        | none =>
          simp only [cascadeGo] at h ⊢
          simpa using ih none i (by simpa using h)
        | some q =>
          simp only [cascadeGo] at h ⊢
          simpa using ih (some q) i (by simpa using h)

/-- Unfolding of `evaluateListBoundary` as nested conditionals. -/
theorem evaluateListBoundary_eq (previousSpine nextSpine : RootListSpines) :
    evaluateListBoundary previousSpine nextSpine =
      if (computeExpectedStartsByDepthForLink previousSpine
          nextSpine).isEmpty then .cold
      else if (computeExpectedStartsByDepthForLink previousSpine
          nextSpine).any (boundaryHotAtDepth nextSpine) then
        .hot (computeExpectedStartsByDepthForLink previousSpine nextSpine)
      else .cold := rfl

/-- The per-depth hot check succeeds exactly on a present list whose start is
a finite value other than `1`. -/
theorem boundaryHotAtDepth_iff (nextSpine : RootListSpines) (e : Nat × Int) :
    boundaryHotAtDepth nextSpine e = true ↔
      ∃ l, nextSpine.leading.lists[e.1]? = some l ∧
        ∃ s, getStart l = some s ∧ s ≠ 1 := by
  unfold boundaryHotAtDepth
  cases h : nextSpine.leading.lists[e.1]? with
  | none => simp
  | some l =>
    cases hs : getStart l with
    | none => simp [hs]
    | some s =>
      simp only [hs]
      constructor
      · intro hne
        exact ⟨l, rfl, s, hs, by simpa using hne⟩
      · rintro ⟨l', hl', s', hs', hne⟩
        obtain rfl : l = l' := by injection hl'
        rw [hs] at hs'
        obtain rfl : s = s' := by injection hs'
        simpa using hne

/-- C2: for every boundary between two adjacent root-level lists, if the
depth-to-expected-start mapping is empty the boundary is cold; otherwise it is
hot (carrying exactly that mapping) if and only if at some mapped depth the
next list's currently-set start ordinal is a finite value different from
exactly `1`; in particular when every mapped depth of the next list's leading
spine shows start exactly `1`, the boundary is cold. -/
theorem hotColdClassification (previousSpine nextSpine : RootListSpines) :
    (computeExpectedStartsByDepthForLink previousSpine nextSpine = [] →
      evaluateListBoundary previousSpine nextSpine = .cold) ∧
    (computeExpectedStartsByDepthForLink previousSpine nextSpine ≠ [] →
      (evaluateListBoundary previousSpine nextSpine =
          .hot (computeExpectedStartsByDepthForLink previousSpine nextSpine) ↔
        ∃ e ∈ computeExpectedStartsByDepthForLink previousSpine nextSpine,
          ∃ l, nextSpine.leading.lists[e.1]? = some l ∧
            ∃ s, getStart l = some s ∧ s ≠ 1)) ∧
    (∀ m', evaluateListBoundary previousSpine nextSpine = .hot m' →
      m' = computeExpectedStartsByDepthForLink previousSpine nextSpine ∧
        computeExpectedStartsByDepthForLink previousSpine nextSpine ≠ []) ∧
    ((∀ e ∈ computeExpectedStartsByDepthForLink previousSpine nextSpine,
        ∀ l, nextSpine.leading.lists[e.1]? = some l → getStart l = some 1) →
      evaluateListBoundary previousSpine nextSpine = .cold) := by
  refine ⟨?_, ?_, ?_, ?_⟩
  · intro h
    rw [evaluateListBoundary_eq, h]
    rfl
  · intro hne
    have hE : (computeExpectedStartsByDepthForLink previousSpine
        nextSpine).isEmpty = false := by
      cases hq : computeExpectedStartsByDepthForLink previousSpine nextSpine
      · exact absurd hq hne
      · rfl
    rw [evaluateListBoundary_eq, hE]
    simp only [Bool.false_eq_true, if_false]
    constructor
    · intro hh
      by_cases hA : (computeExpectedStartsByDepthForLink previousSpine
          nextSpine).any (boundaryHotAtDepth nextSpine) = true
      · obtain ⟨e, he, hhot⟩ := List.any_eq_true.mp hA
        exact ⟨e, he, (boundaryHotAtDepth_iff nextSpine e).mp hhot⟩
      · simp [hA] at hh
    · rintro ⟨e, he, hex⟩
      have hA : (computeExpectedStartsByDepthForLink previousSpine
          nextSpine).any (boundaryHotAtDepth nextSpine) = true :=
        List.any_eq_true.mpr ⟨e, he, (boundaryHotAtDepth_iff nextSpine e).mpr hex⟩
      rw [hA]
      rfl
  · intro m' hm'
    rw [evaluateListBoundary_eq] at hm'
    by_cases hE : (computeExpectedStartsByDepthForLink previousSpine
        nextSpine).isEmpty = true
    · simp [hE] at hm'
    · have hne : computeExpectedStartsByDepthForLink previousSpine
          nextSpine ≠ [] := by
        intro hq
        rw [hq] at hE
        exact hE rfl
      refine ⟨?_, hne⟩
      simp only [hE, Bool.false_eq_true, if_false] at hm'
      by_cases hA : (computeExpectedStartsByDepthForLink previousSpine
          nextSpine).any (boundaryHotAtDepth nextSpine) = true
      · rw [hA] at hm'
        simp only [if_true] at hm'
        injection hm' with hmm
        exact hmm.symm
      · simp [hA] at hm'
  · intro hall
    rw [evaluateListBoundary_eq]
    by_cases hE : (computeExpectedStartsByDepthForLink previousSpine
        nextSpine).isEmpty = true
    · simp [hE]
    · have hA : (computeExpectedStartsByDepthForLink previousSpine
          nextSpine).any (boundaryHotAtDepth nextSpine) = false := by
        rw [List.any_eq_false]
        intro e he
        intro hcontra
        obtain ⟨l, hl, s, hs, hne1⟩ := (boundaryHotAtDepth_iff nextSpine e).mp
          hcontra
        have h1 := hall e he l hl
        have hs1 : (some s : Option Int) = some 1 := by rw [← hs, h1]
        injection hs1 with hh
        exact hne1 hh
      simp [hE, hA]

/-- Witness for `hotColdClassification` at a concrete boundary: the boundary
of `docHotFlat` (second list start `7`) is classified hot with mapping
`{0 ↦ 4}`, obtained by discharging the theorem's hypotheses at this input. -/
theorem hotColdClassification_witness :
    evaluateListBoundary (rootListSpines (docHotFlat.getD 0 .other))
        (rootListSpines (docHotFlat.getD 1 .other)) = .hot [(0, 4)] :=
  ((hotColdClassification (rootListSpines (docHotFlat.getD 0 .other))
        (rootListSpines (docHotFlat.getD 1 .other))).2.1
      (by decide)).mpr
    ⟨(0, 4), by decide,
      .listNode 11 .number (some 7) (LForest.ofList [.listItem (some 1) .nil]),
      rfl, 7, rfl, by decide⟩

/-- C8: pairing filters the top-level block sequence to list blocks only,
preserving relative order (non-list blocks are transparent), and pairs each
list block with the next one in the filtered sequence: `N` list blocks yield
`N − 1` pairs (`0` when `N ≤ 1`), the `i`-th pair holding the spines of the
`i`-th and `(i+1)`-th filtered list blocks. -/
theorem boundaryPairing (blocks : List LNode) :
    (pairSoftAdjacentListEdges (traverseAllListEdges blocks)).length
        = (blocks.filter isListNode).length - 1 ∧
    ((blocks.filter isListNode).length ≤ 1 →
      pairSoftAdjacentListEdges (traverseAllListEdges blocks) = []) ∧
    ∀ (i : Nat) (a b : LNode), (blocks.filter isListNode)[i]? = some a →
      (blocks.filter isListNode)[i + 1]? = some b →
      (pairSoftAdjacentListEdges (traverseAllListEdges blocks))[i]? =
        some (rootListSpines a, rootListSpines b) := by
  have hta : (traverseAllListEdges blocks).length
      = (blocks.filter isListNode).length := by
    simp [traverseAllListEdges]
  have hlen := pairSoftAdjacentListEdges_length (traverseAllListEdges blocks)
  refine ⟨by rw [hlen, hta], ?_, ?_⟩
  · intro h1
    have : (pairSoftAdjacentListEdges (traverseAllListEdges blocks)).length
        = 0 := by omega
    exact List.eq_nil_of_length_eq_zero this
  · intro i a b ha hb
    rw [pairSoftAdjacentListEdges_getElem?, traverseAllListEdges_getElem?,
      traverseAllListEdges_getElem?, ha, hb]
    rfl

/-- Witness for `boundaryPairing`: in `docPara` (list, paragraph, list, list)
the paragraph is transparent — the first pair joins the lists with keys `20`
and `21`. -/
theorem boundaryPairing_witness :
    (pairSoftAdjacentListEdges (traverseAllListEdges docPara))[0]? =
      some (rootListSpines (docPara.getD 0 .other),
            rootListSpines (docPara.getD 2 .other)) :=
  (boundaryPairing docPara).2.2 0 _ _ rfl rfl

/-- The cascaded value of one entry, given both lookups. -/
theorem cascadeEntry_value (p : OrdinalContinuityPlan) (d : Nat) (a b0 : Int)
    (ha : List.lookup d p.startsByDepth = some a) :
    (cascadeEntry p (d, b0)).2 =
      if p.appliedDepths.contains d ∧ b0 < a then a else b0 := by
  unfold cascadeEntry
  dsimp only
  rw [ha]
  dsimp only
  by_cases h1 : p.appliedDepths.contains d = true
  · have hm : d ∈ p.appliedDepths := by simpa using h1
    by_cases h2 : b0 < a
    · simp [h1, h2, hm]
    · simp [h1, h2, hm]
  · have hm : d ∉ p.appliedDepths := by simpa using h1
    simp [hm]

/-- C4: in the cascaded plan sequence, whenever two consecutive entries are
non-null plans and a depth is present in both mappings, the successor's
cascaded value at that depth is the predecessor's value exactly when the
predecessor applied continuity there and its value is strictly greater
(otherwise the successor keeps its own computed value); in particular the
value at such a depth never decreases from one plan to the next. -/
theorem monotonicCascade (plans : List (Option OrdinalContinuityPlan))
    (i : Nat) (p q0 : OrdinalContinuityPlan) (d : Nat) (a b0 : Int)
    (hp : (deriveCascadedOrdinalContinuityPlans plans)[i]? = some (some p))
    (hq0 : plans[i + 1]? = some (some q0))
    (ha : List.lookup d p.startsByDepth = some a)
    (hb0 : List.lookup d q0.startsByDepth = some b0) :
    ∃ q, (deriveCascadedOrdinalContinuityPlans plans)[i + 1]?
        = some (some q) ∧
      List.lookup d q.startsByDepth =
        some (if p.appliedDepths.contains d ∧ b0 < a then a else b0) ∧
      (p.appliedDepths.contains d = true →
        a ≤ if p.appliedDepths.contains d ∧ b0 < a then a else b0) := by
  have hsucc := cascadeGo_succ_of_some none plans i p hp
  rw [hq0] at hsucc
  refine ⟨cascadeInto p q0, ?_, ?_, ?_⟩
  · show (cascadeGo none plans)[i + 1]? = _
    rw [hsucc]
    rfl
  · rw [lookup_cascadeInto, hb0]
    show some ((cascadeEntry p (d, b0)).2) = _
    rw [cascadeEntry_value p d a b0 ha]
  · intro hc
    have hm : d ∈ p.appliedDepths := by simpa using hc
    by_cases h2 : b0 < a
    · simp [hm, h2]
    · simp [hm, h2]
      omega

/-- Witness for `monotonicCascade`: on the concrete two-plan chain
`[demoPrevPlan, demoCurrPlan]` the second plan's depth-0 value is overwritten
with the first plan's larger value `7`. -/
theorem monotonicCascade_witness :
    ∃ q, (deriveCascadedOrdinalContinuityPlans
        [some demoPrevPlan, some demoCurrPlan])[1]? = some (some q) ∧
      List.lookup 0 q.startsByDepth = some 7 := by
  obtain ⟨q, h1, h2, h3⟩ := monotonicCascade
    [some demoPrevPlan, some demoCurrPlan] 0 demoPrevPlan demoCurrPlan 0 7 2
    rfl rfl rfl rfl
  refine ⟨q, h1, ?_⟩
  rw [h2]
  norm_num [demoPrevPlan]

/-- C5: a boundary evaluated cold yields a `null` entry in the chained and
cascaded plan sequences (so it contributes no mapping entries), the write
actions decompose plan-wise with the cold position contributing none, and the
entry after a cold position is passed through the cascade unchanged — the next
hot plan keeps exactly its own locally computed starts. -/
theorem coldIsolation (blocks : List LNode) (i : Nat)
    (pr : RootListSpines × RootListSpines)
    (hpr : (pairSoftAdjacentListEdges (traverseAllListEdges blocks))[i]?
      = some pr)
    (hcold : evaluateListBoundary pr.1 pr.2 = .cold) :
    (chainedPlansOfBlocks blocks)[i]? = some none ∧
    (deriveCascadedOrdinalContinuityPlans (chainedPlansOfBlocks blocks))[i]?
      = some none ∧
    ((deriveCascadedOrdinalContinuityPlans
        (chainedPlansOfBlocks blocks)).map optPlanNormalizations)[i]?
      = some [] ∧
    computeOrderedListOrdinalContinuityNormalizations blocks =
      ((deriveCascadedOrdinalContinuityPlans
          (chainedPlansOfBlocks blocks)).map optPlanNormalizations).flatten ∧
    (deriveCascadedOrdinalContinuityPlans
        (chainedPlansOfBlocks blocks))[i + 1]?
      = (chainedPlansOfBlocks blocks)[i + 1]? := by
  have hchain : (chainedPlansOfBlocks blocks)[i]? = some none := by
    unfold chainedPlansOfBlocks
    rw [List.getElem?_map, hpr]
    simp [hcold]
  have hcas : (deriveCascadedOrdinalContinuityPlans
      (chainedPlansOfBlocks blocks))[i]? = some none :=
    (cascadeGo_none_iff none (chainedPlansOfBlocks blocks) i).mpr hchain
  refine ⟨hchain, hcas, ?_, rfl, ?_⟩
  · rw [List.getElem?_map, hcas]
    rfl
  · exact cascadeGo_succ_of_none none (chainedPlansOfBlocks blocks) i hcas

/-- Witness for `coldIsolation` at `docBCDSecond`, whose first boundary is
cold while its second is hot: the cold boundary yields `null` entries and the
following plan passes through the cascade unchanged. -/
theorem coldIsolation_witness :
    (chainedPlansOfBlocks docBCDSecond)[0]? = some none ∧
    (deriveCascadedOrdinalContinuityPlans
        (chainedPlansOfBlocks docBCDSecond))[1]?
      = (chainedPlansOfBlocks docBCDSecond)[1]? := by
  obtain ⟨h1, h2, h3, h4, h5⟩ := coldIsolation docBCDSecond 0
    (rootListSpines (docBCDSecond.getD 0 .other),
     rootListSpines (docBCDSecond.getD 1 .other)) rfl (by decide)
  exact ⟨h1, h5⟩

/-- C7: the node transform runs only when the touched list is numbered and is
either a root-level block (`parents.length = 1`) or nested with the editor
root as outermost parent and a root-level list as its child, with every
ancestor list numbered; when any guard fails the trigger emits no write action
and leaves the document completely unchanged (and, being a total function,
raises no error). -/
theorem triggerGuardNoOp (maybeDirtyList : LNode)
    (parents blocks : List LNode) :
    (listTransformGuard maybeDirtyList parents = false →
      listTransform maybeDirtyList parents blocks = [] ∧
      applyWrites blocks (listTransform maybeDirtyList parents blocks)
        = blocks) ∧
    (listTransformGuard maybeDirtyList parents = true →
      isNumberedList maybeDirtyList = true ∧
      (parents.length = 1 ∨
        (2 ≤ parents.length ∧
          (∃ r, parents.getLast? = some r ∧ isRootNode r = true) ∧
          (∃ rc, parents.dropLast.getLast? = some rc ∧
            isListNode rc = true))) ∧
      ∀ pa ∈ parents, isListNode pa = true → isNumberedList pa = true) := by
  constructor
  · intro h
    have hT : listTransform maybeDirtyList parents blocks = [] := by
      unfold listTransform
      rw [h]
      rfl
    exact ⟨hT, by rw [hT]; rfl⟩
  · intro h
    unfold listTransformGuard at h
    simp only [Bool.and_eq_true] at h
    obtain ⟨⟨h1, h2⟩, h3⟩ := h
    refine ⟨h1, ?_, ?_⟩
    · simp only [Bool.or_eq_true] at h2
      rcases h2 with h2 | h2
      · right
        simp only [Bool.and_eq_true, decide_eq_true_eq] at h2
        obtain ⟨⟨hlen, hroot⟩, hchild⟩ := h2
        refine ⟨hlen, ?_, ?_⟩
        · cases hr : parents.getLast? with
          | none => rw [hr] at hroot; exact absurd hroot (by simp)
          | some r => exact ⟨r, rfl, by rw [hr] at hroot; exact hroot⟩
        · cases hrc : parents.dropLast.getLast? with
          | none => rw [hrc] at hchild; exact absurd hchild (by simp)
          | some rc => exact ⟨rc, rfl, by rw [hrc] at hchild; exact hchild⟩
      · left
        simpa using h2
    · intro pa hpa hlist
      have := List.all_eq_true.mp h3
      exact this pa (List.mem_filter.mpr ⟨hpa, hlist⟩)

/-- Witness for `triggerGuardNoOp`: the bullet list `nodeL2` fails the guard
(it is not numbered), so the trigger is a pure no-op on `docBCD`; the numbered
root-level list `nodeD` passes the guard. -/
theorem triggerGuardNoOp_witness :
    listTransform nodeL2 [rootOfDocBCD] docBCD = [] ∧
    applyWrites docBCD (listTransform nodeL2 [rootOfDocBCD] docBCD)
      = docBCD ∧
    isNumberedList nodeD = true := by
  obtain ⟨hT, hA⟩ := (triggerGuardNoOp nodeL2 [rootOfDocBCD] docBCD).1
    (by decide)
  exact ⟨hT, hA, ((triggerGuardNoOp nodeD [rootOfDocBCD] docBCD).2
    (by decide)).1⟩

/-- C1 (code bug): the full `part_000` pipeline — spine extraction, pairing,
boundary evaluation, cascading, normalization — is not idempotent, although
its own documentation says it is.  On `docBCD` the first run emits three
writes; applying them flips the first boundary from hot to cold (every mapped
depth of `nodeC` then shows the default start `1`), which resets the cascade,
so the second run still emits the write `(8, 2)` instead of none. -/
theorem pipelineNotIdempotentOnDocBCD :
    computeOrderedListOrdinalContinuityNormalizations docBCD
        = [(6, 1), (8, 7), (9, 7)] ∧
    computeOrderedListOrdinalContinuityNormalizations docBCDSecond
        = [(8, 2)] ∧
    computeOrderedListOrdinalContinuityNormalizations docBCDSecond ≠ [] :=
  ⟨rfl, rfl, by decide⟩

/-- C6 (counterexample): the two plugin variants do not compute the same write
actions on every document — on `docTwoFlat` (two flat numbered lists, second
start `1`) the boundary-evaluating variant classifies the boundary cold and
writes nothing, while the variant without boundary evaluation writes start `4`
to the second list. -/
theorem variantsDisagreeOnDocTwoFlat :
    computeOrderedListOrdinalContinuityNormalizations docTwoFlat = [] ∧
    computeOrderedListOrdinalContinuityNormalizationsB docTwoFlat
        = [(11, 4)] ∧
    computeOrderedListOrdinalContinuityNormalizations docTwoFlat ≠
      computeOrderedListOrdinalContinuityNormalizationsB docTwoFlat :=
  ⟨rfl, rfl, by decide⟩

/-- Characterization of `findDeepestLinkableDepth`: starting from depth
`n - 1` and walking down, the result is the greatest depth below `n` at which
both spine lists are numbered, or `-1` when no such depth exists. -/
theorem findDeepestLinkableDepth_spec (pl nl : List LNode) :
    ∀ n : Nat,
      (findDeepestLinkableDepth pl nl n = -1 ∧
        ∀ d : Nat, d < n → bothListsAreNumbered pl nl d = false) ∨
      (∃ d : Nat, d < n ∧ findDeepestLinkableDepth pl nl n = (d : Int) ∧
        bothListsAreNumbered pl nl d = true ∧
        ∀ d' : Nat, d < d' → d' < n →
          bothListsAreNumbered pl nl d' = false) := by
  intro n
  induction n with
  | zero => exact .inl ⟨rfl, by omega⟩
  | succ n ih =>
    by_cases h : bothListsAreNumbered pl nl n = true
    · refine .inr ⟨n, by omega, ?_, h, ?_⟩
      · simp [findDeepestLinkableDepth, h]
      · intro d' h1 h2
        omega
    · have hf : bothListsAreNumbered pl nl n = false := by
        simpa using h
      have heq : findDeepestLinkableDepth pl nl (n + 1)
          = findDeepestLinkableDepth pl nl n := by
        simp [findDeepestLinkableDepth, hf]
      rcases ih with ⟨h1, h2⟩ | ⟨d, hd, h1, h2, h3⟩
      · refine .inl ⟨by rw [heq, h1], ?_⟩
        intro d hdn
        rcases Nat.lt_succ_iff_lt_or_eq.mp hdn with h' | h'
        · exact h2 d h'
        · subst h'; exact hf
      · refine .inr ⟨d, by omega, by rw [heq, h1], h2, ?_⟩
        intro d' hd1 hd2
        rcases Nat.lt_succ_iff_lt_or_eq.mp hd2 with h' | h'
        · exact h3 d' hd1 h'
        · subst h'; exact hf

/-- Bounds of `findDeepestLinkableDepth`: at least `-1` and below the starting
depth bound. -/
theorem findDeepestLinkableDepth_bounds (pl nl : List LNode) (n : Nat) :
    -1 ≤ findDeepestLinkableDepth pl nl n ∧
      findDeepestLinkableDepth pl nl n < (n : Int) := by
  rcases findDeepestLinkableDepth_spec pl nl n with ⟨h1, _⟩ | ⟨d, hd, h1, _, _⟩
  · rw [h1]
    constructor
    · omega
    · have : (0 : Int) ≤ (n : Int) := by positivity
      omega
  · rw [h1]
    constructor
    · omega
    · exact_mod_cast hd

/-- Looking up a key in a filtered key-value table built over a list of
keys. -/
theorem lookup_map_filter (g : Nat → Int) :
    ∀ (l : List Nat) (d : Nat),
      List.lookup d ((l.map (fun x => (x, g x))).filter (fun e => 0 < e.2)) =
        if d ∈ l ∧ 0 < g d then some (g d) else none := by
  intro l
  induction l with
  | nil => intro d; simp
  | cons x l ih =>
    intro d
    by_cases hgx : 0 < g x
    · simp only [List.map_cons, List.filter_cons]
      rw [if_pos (by simpa using hgx)]
      by_cases hdx : d = x
      · subst hdx
        simp [List.lookup, hgx]
      · have hne : (d == x) = false := by simp; omega
        simp only [List.lookup, hne]
        rw [ih d]
        simp [hdx]
    · simp only [List.map_cons, List.filter_cons]
      rw [if_neg (by simpa using hgx)]
      rw [ih d]
      by_cases hdx : d = x
      · subst hdx
        simp [hgx]
      · simp [hdx]

/-- Unfolding of `computeExpectedStartsByDepthForLink` with its `let`
bindings expanded. -/
theorem computeExpectedStartsByDepthForLink_eq
    (previousSpine nextSpine : RootListSpines) :
    computeExpectedStartsByDepthForLink previousSpine nextSpine =
      ((if findDeepestLinkableDepth previousSpine.trailing.lists
            nextSpine.leading.lists
            (min previousSpine.trailing.lists.length
              nextSpine.leading.lists.length) < 0 then ([] : List Nat)
        else List.range ((findDeepestLinkableDepth
            previousSpine.trailing.lists nextSpine.leading.lists
            (min previousSpine.trailing.lists.length
              nextSpine.leading.lists.length)).toNat + 1)).map
          (fun currentDepth =>
            (currentDepth,
              expectedStartAtDepth previousSpine
                (findDeepestLinkableDepth previousSpine.trailing.lists
                  nextSpine.leading.lists
                  (min previousSpine.trailing.lists.length
                    nextSpine.leading.lists.length)) currentDepth))).filter
        (fun e => 0 < e.2) := rfl

/-- Unfolding of `expectedStartAtDepth` as a match on the previous trailing
boundary item's value. -/
theorem expectedStartAtDepth_eq (previousSpine : RootListSpines) (DL : Int)
    (d : Nat) :
    expectedStartAtDepth previousSpine DL d =
      match (previousSpine.trailing.listItems[d]?).bind getValue with
      | some p =>
        if 0 < p then
          (if (maximumDepthInPreviousSpine previousSpine == DL)
              && ((d : Int) == DL) then p + 1 else p)
        else 0
      | none => 0 := rfl

/-- C3: the deepest linkable depth is the deepest depth not exceeding
`min(len(previous trailing spine), len(next leading spine)) − 1` at which the
lists of both spines are numbered (`-1` when none is), and the expected-starts
mapping holds exactly the depths `0 .. deepestLinkDepth` whose previous
trailing boundary-item ordinal is a finite positive value, mapping each to
that ordinal — incremented by one exactly at the deepest linked depth and only
when that depth is also the deepest depth of the previous trailing spine. -/
theorem expectedStartComputation (previousSpine nextSpine : RootListSpines) :
    ((findDeepestLinkableDepth previousSpine.trailing.lists
        nextSpine.leading.lists
        (min previousSpine.trailing.lists.length
          nextSpine.leading.lists.length) = -1 ∧
      ∀ d : Nat, (d : Int) ≤ commonMaximumDepth previousSpine nextSpine →
        bothListsAreNumbered previousSpine.trailing.lists
          nextSpine.leading.lists d = false) ∨
     (∃ dl : Nat,
        findDeepestLinkableDepth previousSpine.trailing.lists
          nextSpine.leading.lists
          (min previousSpine.trailing.lists.length
            nextSpine.leading.lists.length) = (dl : Int) ∧
        (dl : Int) ≤ commonMaximumDepth previousSpine nextSpine ∧
        bothListsAreNumbered previousSpine.trailing.lists
          nextSpine.leading.lists dl = true ∧
        ∀ d' : Nat, dl < d' →
          (d' : Int) ≤ commonMaximumDepth previousSpine nextSpine →
          bothListsAreNumbered previousSpine.trailing.lists
            nextSpine.leading.lists d' = false)) ∧
    (∀ (d : Nat) (v : Int),
      List.lookup d
          (computeExpectedStartsByDepthForLink previousSpine nextSpine)
        = some v ↔
        ((d : Int) ≤ findDeepestLinkableDepth previousSpine.trailing.lists
            nextSpine.leading.lists
            (min previousSpine.trailing.lists.length
              nextSpine.leading.lists.length) ∧
          ∃ p : Int,
            (previousSpine.trailing.listItems[d]?).bind getValue = some p ∧
            0 < p ∧
            v = if (d : Int) = findDeepestLinkableDepth
                  previousSpine.trailing.lists nextSpine.leading.lists
                  (min previousSpine.trailing.lists.length
                    nextSpine.leading.lists.length) ∧
                findDeepestLinkableDepth previousSpine.trailing.lists
                    nextSpine.leading.lists
                    (min previousSpine.trailing.lists.length
                      nextSpine.leading.lists.length)
                  = maximumDepthInPreviousSpine previousSpine
              then p + 1 else p)) := by
  have hcm : commonMaximumDepth previousSpine nextSpine =
      ((min previousSpine.trailing.lists.length
        nextSpine.leading.lists.length : Nat) : Int) - 1 := rfl
  constructor
  · rcases findDeepestLinkableDepth_spec previousSpine.trailing.lists
      nextSpine.leading.lists
      (min previousSpine.trailing.lists.length
        nextSpine.leading.lists.length) with ⟨h1, h2⟩ | ⟨dl, hdl, h1, h2, h3⟩
    · refine .inl ⟨h1, ?_⟩
      intro d hd
      refine h2 d ?_
      rw [hcm] at hd
      omega
    · refine .inr ⟨dl, h1, ?_, h2, ?_⟩
      · rw [hcm]
        omega
      · intro d' hd1 hd2
        refine h3 d' hd1 ?_
        rw [hcm] at hd2
        omega
  · intro d v
    rw [computeExpectedStartsByDepthForLink_eq previousSpine nextSpine]
    rw [lookup_map_filter]
    set DL := findDeepestLinkableDepth previousSpine.trailing.lists
      nextSpine.leading.lists
      (min previousSpine.trailing.lists.length
        nextSpine.leading.lists.length) with hDL
    have hmem : (d ∈ if DL < 0 then ([] : List Nat)
        else List.range (DL.toNat + 1)) ↔ (d : Int) ≤ DL := by
      by_cases h : DL < 0
      · rw [if_pos h]
        simp only [List.not_mem_nil, false_iff]
        intro hc
        have : (0 : Int) ≤ (d : Int) := by positivity
        omega
      · rw [if_neg h]
        rw [List.mem_range]
        push_neg at h
        constructor
        · intro hc
          have : d ≤ DL.toNat := by omega
          have h2 := Int.toNat_of_nonneg h
          omega
        · intro hc
          have h2 := Int.toNat_of_nonneg h
          omega
    have hbool : ∀ dd : Nat,
        ((maximumDepthInPreviousSpine previousSpine == DL)
          && ((dd : Int) == DL)) = true ↔
        ((dd : Int) = DL ∧
          DL = maximumDepthInPreviousSpine previousSpine) := by
      intro dd
      simp only [Bool.and_eq_true, beq_iff_eq]
      constructor
      · rintro ⟨ha, hb⟩
        exact ⟨hb, ha.symm⟩
      · rintro ⟨ha, hb⟩
        exact ⟨hb.symm, ha⟩
    cases hpv : (previousSpine.trailing.listItems[d]?).bind getValue with
    | none =>
      have hg : expectedStartAtDepth previousSpine DL d = 0 := by
        rw [expectedStartAtDepth_eq, hpv]
      rw [hg]
      rw [if_neg (by simp)]
      constructor
      · intro h
        exact absurd h (by simp)
      · rintro ⟨_, p, hp, _, _⟩
        exact absurd hp (by simp)
    | some p =>
      by_cases hp : 0 < p
      · by_cases hreq : (d : Int) = DL ∧
            DL = maximumDepthInPreviousSpine previousSpine
        · have hg : expectedStartAtDepth previousSpine DL d = p + 1 := by
            rw [expectedStartAtDepth_eq, hpv]
            dsimp only
            rw [if_pos hp, if_pos ((hbool d).mpr hreq)]
          rw [hg]
          by_cases hd : (d : Int) ≤ DL
          · rw [if_pos ⟨hmem.mpr hd, by omega⟩]
            constructor
            · intro h
              injection h with hv
              exact ⟨hd, p, rfl, hp, by rw [if_pos hreq, ← hv]⟩
            · rintro ⟨_, p', hp', hpp', hv⟩
              injection hp' with he
              subst he
              rw [if_pos hreq] at hv
              rw [hv]
          · rw [if_neg (fun hc => hd (hmem.mp hc.1))]
            constructor
            · intro h
              exact absurd h (by simp)
            · rintro ⟨hdd, _⟩
              exact absurd hdd hd
        · have hg : expectedStartAtDepth previousSpine DL d = p := by
            rw [expectedStartAtDepth_eq, hpv]
            dsimp only
            rw [if_pos hp, if_neg (fun hb => hreq ((hbool d).mp hb))]
          rw [hg]
          by_cases hd : (d : Int) ≤ DL
          · rw [if_pos ⟨hmem.mpr hd, hp⟩]
            constructor
            · intro h
              injection h with hv
              exact ⟨hd, p, rfl, hp, by rw [if_neg hreq, ← hv]⟩
            · rintro ⟨_, p', hp', hpp', hv⟩
              injection hp' with he
              subst he
              rw [if_neg hreq] at hv
              rw [hv]
          · rw [if_neg (fun hc => hd (hmem.mp hc.1))]
            constructor
            · intro h
              exact absurd h (by simp)
            · rintro ⟨hdd, _⟩
              exact absurd hdd hd
      · have hg : expectedStartAtDepth previousSpine DL d = 0 := by
          rw [expectedStartAtDepth_eq, hpv]
          dsimp only
          rw [if_neg hp]
        rw [hg]
        rw [if_neg (by simp)]
        constructor
        · intro h
          exact absurd h (by simp)
        · rintro ⟨_, p', hp', hpp', _⟩
          injection hp' with he
          subst he
          exact absurd hpp' hp

/-- Witness for `expectedStartComputation` at the first boundary of `docBCD`:
depth 1 is linked without increment (the previous trailing spine is deeper
than the link), so the mapping sends depth 1 to the raw previous value `1`. -/
theorem expectedStartComputation_witness :
    List.lookup 1
        (computeExpectedStartsByDepthForLink (rootListSpines nodeB)
          (rootListSpines nodeC))
      = some 1 :=
  ((expectedStartComputation (rootListSpines nodeB)
        (rootListSpines nodeC)).2 1 1).mpr
    ⟨by decide, 1, rfl, by decide, by decide⟩

/-- Size-bounded induction step for `spineExtraction`. -/
theorem spineSpec_of_size :
    ∀ (N : Nat) (l : LNode) (e : Edge), nodeSize l ≤ N →
      isListNode l = true →
      SpineSpec e l (traverseEdge l e).listItems (traverseEdge l e).lists := by
  intro N
  induction N using Nat.strong_induction_on with
  | _ N ih =>
    intro l e hle hlist
    cases l with
    | listItem v ics => simp [isListNode] at hlist
    | rootNode cs => simp [isListNode] at hlist
    | other => simp [isListNode] at hlist
    | listNode k t s cs =>
      cases hpick : edgePick e cs.toList with
      | none =>
        rw [traverseEdge_none hpick]
        exact .stop k t s cs
          (fun n h => by rw [hpick] at h; exact Option.noConfusion h)
      | some n =>
        cases n with
        | listItem v ics =>
          cases hnest : edgePick e (ics.toList.filter isListNode) with
          | none =>
            rw [traverseEdge_item_nonest hpick hnest]
            exact .last k t s cs v ics hpick hnest
          | some nested =>
            rw [traverseEdge_item_nest hpick hnest]
            have hnl : isListNode nested = true :=
              (List.mem_filter.mp (mem_of_edgePick hnest)).2
            have hsize := nodeSize_nested_lt hpick hnest k t s
            exact .step k t s cs v ics nested _ _ hpick hnest
              (ih (nodeSize nested) (by omega) nested e (le_refl _) hnl)
        | listNode k' t' s' cs' =>
          rw [traverseEdge_notitem hpick rfl]
          exact .stop k t s cs
            (fun n h => by
              rw [hpick] at h
              injection h with he
              subst he
              rfl)
        | rootNode cs' =>
          rw [traverseEdge_notitem hpick rfl]
          exact .stop k t s cs
            (fun n h => by
              rw [hpick] at h
              injection h with he
              subst he
              rfl)
        | other =>
          rw [traverseEdge_notitem hpick rfl]
          exact .stop k t s cs
            (fun n h => by
              rw [hpick] at h
              injection h with he
              subst he
              rfl)

/-- C9: for every root list and edge, the extractor's output is exactly the
walk described by the spec — starting at the root at depth 0, recording the
edge child of each visited list when it is a list item (stopping otherwise),
descending into the edge-positioned list among that item's direct list
children (first for leading, last for trailing), stopping when none exists,
and returning the visited lists and boundary items ordered from depth 0
downward; being a pure function of the tree, it performs no writes, and
malformed structure only truncates the walk (the `stop`/`last` cases). -/
theorem spineExtraction (l : LNode) (e : Edge) (h : isListNode l = true) :
    SpineSpec e l (traverseEdge l e).listItems (traverseEdge l e).lists :=
  spineSpec_of_size (nodeSize l) l e (le_refl _) h

/-- Witness for `spineExtraction`: the trailing spine of the concrete root
list `nodeC` satisfies the walk specification. -/
theorem spineExtraction_witness :
    SpineSpec .trailing nodeC (traverseEdge nodeC .trailing).listItems
      (traverseEdge nodeC .trailing).lists :=
  spineExtraction nodeC .trailing rfl

/-- The write-emitting fold is a `filterMap`. -/
theorem foldl_emit_eq_filterMap (f : Nat → Option WriteAction) :
    ∀ (l : List Nat) (acc : List WriteAction),
      l.foldl
        (fun listStartSetters depth =>
          match f depth with
          | some w => listStartSetters ++ [w]
          | none => listStartSetters) acc
      = acc ++ l.filterMap f := by
  intro l
  induction l with
  | nil => intro acc; simp
  | cons d l ih =>
    intro acc
    cases hf : f d with
    | none => simp only [List.foldl_cons, hf, ih, List.filterMap_cons, hf]
    | some w =>
      simp only [List.foldl_cons, hf, ih, List.filterMap_cons, hf]
      simp

/-- `planNormalizations` emits, in linked-depth order, the write of each depth
that produces one. -/
theorem planNormalizations_eq_filterMap (plan : OrdinalContinuityPlan) :
    planNormalizations plan
      = plan.linkedDepths.filterMap (normalizationAtDepth plan) := by
  unfold planNormalizations
  rw [foldl_emit_eq_filterMap]
  rfl

/-- What a single emitted write looks like: the target is the (present,
numbered) leading-spine list at the depth, and the start is positive. -/
theorem normalizationAtDepth_some (plan : OrdinalContinuityPlan) (d : Nat)
    (w : WriteAction) (h : normalizationAtDepth plan d = some w) :
    0 < w.2 ∧ d < plan.leadingLists.length ∧
      isNumberedList (plan.leadingLists.getD d .other) = true ∧
      w.1 = getKey (plan.leadingLists.getD d .other) ∧
      plan.leadingLists.getD d .other ∈ plan.leadingLists := by
  unfold normalizationAtDepth at h
  dsimp only at h
  by_cases hg : (!isNumberedList (plan.leadingLists.getD d .other)
      || (List.lookup d plan.startsByDepth).getD 0 ≤ 0) = true
  · rw [if_pos hg] at h
    exact Option.noConfusion h
  · rw [if_neg hg] at h
    simp only [Bool.or_eq_true, Bool.not_eq_true', decide_eq_true_eq,
      not_or] at hg
    obtain ⟨hnum, hpos⟩ := hg
    rw [Bool.not_eq_false] at hnum
    have hlt : d < plan.leadingLists.length := by
      by_contra hge
      push_neg at hge
      rw [List.getD_eq_getElem?_getD, List.getElem?_eq_none (by omega)] at hnum
      exact absurd hnum (by simp [isNumberedList])
    have hmem : plan.leadingLists.getD d .other ∈ plan.leadingLists := by
      rw [List.getD_eq_getElem?_getD, List.getElem?_eq_getElem hlt]
      exact List.getElem_mem _
    have hw : w = (getKey (plan.leadingLists.getD d .other),
        (List.lookup d plan.startsByDepth).getD 0) := by
      cases hs : getStart (plan.leadingLists.getD d .other) with
      | none => rw [hs] at h; injection h with hh; exact hh.symm
      | some currentStart =>
        rw [hs] at h
        dsimp only at h
        by_cases hc : (currentStart == (List.lookup d
            plan.startsByDepth).getD 0) = true
        · rw [if_pos hc] at h; exact Option.noConfusion h
        · rw [if_neg hc] at h; injection h with hh; exact hh.symm
    subst hw
    exact ⟨by omega, hlt, hnum, rfl, hmem⟩

/-- Cascading rewrites only mapping values: the plan at any cascaded position
comes from an input plan at the same position with the same leading lists,
linked depths, applied depths and mapping keys. -/
theorem cascadeGo_shape :
    ∀ (prev : Option OrdinalContinuityPlan)
      (plans : List (Option OrdinalContinuityPlan)) (i : Nat)
      (p : OrdinalContinuityPlan),
      (cascadeGo prev plans)[i]? = some (some p) →
      ∃ p0, plans[i]? = some (some p0) ∧
        p.leadingLists = p0.leadingLists ∧
        p.linkedDepths = p0.linkedDepths ∧
        p.appliedDepths = p0.appliedDepths ∧
        p.startsByDepth.map Prod.fst = p0.startsByDepth.map Prod.fst := by
  intro prev plans
  induction plans generalizing prev with
  | nil => intro i p h; simp [cascadeGo] at h
  | cons x rest ih =>
    intro i p h
    cases i with
    | zero =>
      cases prev with
      | some pr =>
        cases x with
        | none => simp [cascadeGo] at h
        | some q =>
          simp [cascadeGo] at h
          refine ⟨q, by simp, ?_⟩
          obtain ⟨f1, f2, f3, f4, f5, f6⟩ := cascadeInto_fields pr q
          rw [← h]
          exact ⟨f4, f3, f1, f6⟩
      | none =>
        cases x with
        | none => simp [cascadeGo] at h
        | some q =>
          simp [cascadeGo] at h
          exact ⟨q, by simp, by rw [h], by rw [h], by rw [h], by rw [h]⟩
    | succ i =>
      cases prev with
      | some pr =>
        cases x with
        | none =>
          simp only [cascadeGo] at h ⊢
          obtain ⟨p0, hp0, hrest⟩ := ih none i p (by simpa using h)
          exact ⟨p0, by simpa using hp0, hrest⟩
        | some q =>
          simp only [cascadeGo] at h ⊢
          obtain ⟨p0, hp0, hrest⟩ := ih _ i p (by simpa using h)
          exact ⟨p0, by simpa using hp0, hrest⟩
      | none =>
        cases x with
        | none =>
          simp only [cascadeGo] at h ⊢
          obtain ⟨p0, hp0, hrest⟩ := ih none i p (by simpa using h)
          exact ⟨p0, by simpa using hp0, hrest⟩
        | some q =>
          simp only [cascadeGo] at h ⊢
          obtain ⟨p0, hp0, hrest⟩ := ih (some q) i p (by simpa using h)
          exact ⟨p0, by simpa using hp0, hrest⟩

mutual

/-- A write whose key does not occur in a node's subtree leaves the node
unchanged. -/
theorem setStartByKeyNode_id (k : Nat) (s : Int) :
    ∀ n : LNode, k ∉ nodeKeys n → setStartByKeyNode k s n = n
  | .listNode k' t st cs, h => by
    have hk : ¬k' = k := by
      intro he
      exact h (by rw [he, nodeKeys]; exact List.mem_cons_self _ _)
    have hcs : k ∉ forestKeys cs := by
      intro hm
      exact h (by rw [nodeKeys]; exact List.mem_cons_of_mem _ hm)
    rw [setStartByKeyNode, if_neg hk, setStartByKeyForest_id k s cs hcs]
  | .listItem v cs, h => by
    rw [setStartByKeyNode, setStartByKeyForest_id k s cs (by
      intro hm
      exact h (by rw [nodeKeys]; exact hm))]
  | .rootNode cs, h => by
    rw [setStartByKeyNode, setStartByKeyForest_id k s cs (by
      intro hm
      exact h (by rw [nodeKeys]; exact hm))]
  | .other, _ => rfl

/-- A write whose key does not occur in a children sequence leaves it
unchanged. -/
theorem setStartByKeyForest_id (k : Nat) (s : Int) :
    ∀ f : LForest, k ∉ forestKeys f → setStartByKeyForest k s f = f
  | .nil, _ => rfl
  | .cons n f, h => by
    rw [setStartByKeyForest,
      setStartByKeyNode_id k s n (by
        intro hm
        exact h (by rw [forestKeys]; exact List.mem_append_left _ hm)),
      setStartByKeyForest_id k s f (by
        intro hm
        exact h (by rw [forestKeys]; exact List.mem_append_right _ hm))]

end

/-- A write sequence none of whose keys occur in a node's subtree leaves the
node unchanged. -/
theorem applyNode_id (ws : List WriteAction) (n : LNode)
    (h : ∀ w ∈ ws, w.1 ∉ nodeKeys n) : applyNode ws n = n := by
  induction ws with
  | nil => rfl
  | cons w ws ih =>
    show applyNode ws (setStartByKeyNode w.1 w.2 n) = n
    rw [setStartByKeyNode_id w.1 w.2 n (h w (List.mem_cons_self _ _))]
    exact ih (fun w' hw' => h w' (List.mem_cons_of_mem _ hw'))

/-- Executing the writes over the document equals rewriting each top-level
block independently. -/
theorem applyWrites_eq_map :
    ∀ (ws : List WriteAction) (blocks : List LNode),
      applyWrites blocks ws = blocks.map (applyNode ws) := by
  intro ws
  induction ws with
  | nil =>
    intro blocks
    have h : blocks.map (applyNode []) = blocks.map (fun n => n) := rfl
    show applyWrites blocks [] = blocks.map (applyNode [])
    rw [h]
    show blocks = blocks.map (fun n => n)
    simp
  | cons w ws ih =>
    intro blocks
    show applyWrites (blocks.map (setStartByKeyNode w.1 w.2)) ws = _
    rw [ih, List.map_map]
    rfl

/-- Keys of a member of a children sequence are keys of the sequence. -/
theorem nodeKeys_subset_of_mem_toList :
    ∀ (f : LForest) (n : LNode) (k : Nat), n ∈ f.toList →
      k ∈ nodeKeys n → k ∈ forestKeys f
  | .nil, n, k, h, _ => by simp [LForest.toList] at h
  | .cons m f, n, k, h, hk => by
    rcases List.mem_cons.mp (by simpa [LForest.toList] using h) with h' | h'
    · subst h'
      rw [forestKeys]
      exact List.mem_append_left _ hk
    · rw [forestKeys]
      exact List.mem_append_right _
        (nodeKeys_subset_of_mem_toList f n k h' hk)

/-- Every list on a spine of a root list is a numbered-or-not list node whose
key occurs in the root's subtree. -/
theorem spine_lists_keys :
    ∀ (N : Nat) (n : LNode) (e : Edge), nodeSize n ≤ N →
      isListNode n = true →
      ∀ x ∈ (traverseEdge n e).lists,
        isListNode x = true ∧ getKey x ∈ nodeKeys n := by
  intro N
  induction N using Nat.strong_induction_on with
  | _ N ih =>
    intro n e hle hlist x hx
    cases n with
    | listItem v ics => simp [isListNode] at hlist
    | rootNode cs => simp [isListNode] at hlist
    | other => simp [isListNode] at hlist
    | listNode k t s cs =>
      have hself : getKey (LNode.listNode k t s cs)
          ∈ nodeKeys (LNode.listNode k t s cs) := by
        rw [nodeKeys, getKey]
        exact List.mem_cons_self _ _
      cases hpick : edgePick e cs.toList with
      | none =>
        rw [traverseEdge_none hpick] at hx
        rcases List.mem_singleton.mp hx with rfl
        exact ⟨rfl, hself⟩
      | some m =>
        cases m with
        | listItem v ics =>
          cases hnest : edgePick e (ics.toList.filter isListNode) with
          | none =>
            rw [traverseEdge_item_nonest hpick hnest] at hx
            rcases List.mem_singleton.mp hx with rfl
            exact ⟨rfl, hself⟩
          | some nested =>
            rw [traverseEdge_item_nest hpick hnest] at hx
            rcases List.mem_cons.mp hx with rfl | hx'
            · exact ⟨rfl, hself⟩
            · have hnl : isListNode nested = true :=
                (List.mem_filter.mp (mem_of_edgePick hnest)).2
              have hsize := nodeSize_nested_lt hpick hnest k t s
              obtain ⟨hxl, hxk⟩ := ih (nodeSize nested) (by omega) nested e
                (le_refl _) hnl x hx'
              refine ⟨hxl, ?_⟩
              have h1 : getKey x ∈ forestKeys ics :=
                nodeKeys_subset_of_mem_toList ics nested (getKey x)
                  (List.mem_filter.mp (mem_of_edgePick hnest)).1 hxk
              have h2 : getKey x ∈ nodeKeys (LNode.listItem v ics) := by
                rw [nodeKeys]; exact h1
              have h3 : getKey x ∈ forestKeys cs :=
                nodeKeys_subset_of_mem_toList cs (LNode.listItem v ics)
                  (getKey x) (mem_of_edgePick hpick) h2
              rw [nodeKeys]
              exact List.mem_cons_of_mem _ h3
        | listNode k' t' s' cs' =>
          rw [traverseEdge_notitem hpick rfl] at hx
          rcases List.mem_singleton.mp hx with rfl
          exact ⟨rfl, hself⟩
        | rootNode cs' =>
          rw [traverseEdge_notitem hpick rfl] at hx
          rcases List.mem_singleton.mp hx with rfl
          exact ⟨rfl, hself⟩
        | other =>
          rw [traverseEdge_notitem hpick rfl] at hx
          rcases List.mem_singleton.mp hx with rfl
          exact ⟨rfl, hself⟩

/-- Flattening preserves the sublist relation. -/
theorem sublist_flatten {α : Type} {l1 l2 : List (List α)}
    (h : l1.Sublist l2) : l1.flatten.Sublist l2.flatten := by
  induction h with
  | slnil => exact List.Sublist.refl _
  | cons a _ ih =>
    rw [List.flatten_cons]
    exact ih.trans (List.sublist_append_right a _)
  | cons₂ a _ ih =>
    rw [List.flatten_cons, List.flatten_cons]
    exact ih.append_left a

/-- Origin of every emitted write: a positive target start aimed at a
numbered list on the leading spine of a root-level list that has a
predecessor in the filtered list sequence. -/
theorem write_origin (blocks : List LNode) (w : WriteAction)
    (hw : w ∈ computeOrderedListOrdinalContinuityNormalizations blocks) :
    0 < w.2 ∧ ∃ (i : Nat) (b : LNode),
      (blocks.filter isListNode)[i + 1]? = some b ∧
      ((blocks.filter isListNode)[i]?).isSome = true ∧
      ∃ l ∈ (traverseEdge b .leading).lists,
        isNumberedList l = true ∧ getKey l = w.1 := by
  unfold computeOrderedListOrdinalContinuityNormalizations at hw
  rw [List.mem_flatten] at hw
  obtain ⟨s, hs, hws⟩ := hw
  rw [List.mem_map] at hs
  obtain ⟨x, hx, rfl⟩ := hs
  cases x with
  | none => exact absurd hws (by simp [optPlanNormalizations])
  | some plan =>
    obtain ⟨i, hi⟩ := List.getElem?_of_mem hx
    obtain ⟨p0, hp0, hlead, hlinked, _, _⟩ :=
      cascadeGo_shape none (chainedPlansOfBlocks blocks) i plan hi
    unfold chainedPlansOfBlocks at hp0
    rw [List.getElem?_map] at hp0
    obtain ⟨pr, hpr, hbuild⟩ := Option.map_eq_some'.mp hp0
    cases heval : evaluateListBoundary pr.1 pr.2 with
    | cold => rw [heval] at hbuild; exact Option.noConfusion hbuild
    | hot m =>
      rw [heval] at hbuild
      injection hbuild with hbuild'
      rw [pairSoftAdjacentListEdges_getElem?] at hpr
      rw [traverseAllListEdges_getElem?, traverseAllListEdges_getElem?]
        at hpr
      cases ha : (blocks.filter isListNode)[i]? with
      | none => rw [ha] at hpr; exact Option.noConfusion hpr
      | some a =>
        cases hb : (blocks.filter isListNode)[i + 1]? with
        | none => rw [ha, hb] at hpr; exact Option.noConfusion hpr
        | some b =>
          rw [ha, hb] at hpr
          have hpr' : (rootListSpines a, rootListSpines b) = pr :=
            Option.some.inj hpr
          have hpr2 : pr.2 = rootListSpines b := by rw [← hpr']
          have hplanlead : plan.leadingLists
              = (traverseEdge b .leading).lists := by
            rw [hlead, ← hbuild']
            show pr.2.leading.lists = _
            rw [hpr2]
            rfl
          rw [optPlanNormalizations, planNormalizations_eq_filterMap]
            at hws
          rw [List.mem_filterMap] at hws
          obtain ⟨d, _, hnd⟩ := hws
          obtain ⟨hw2, hdlt, hnum, hw1, hmem⟩ :=
            normalizationAtDepth_some plan d w hnd
          refine ⟨hw2, i, b, hb, by rw [ha]; rfl, ?_⟩
          refine ⟨plan.leadingLists.getD d .other, ?_, hnum, hw1.symm⟩
          rw [← hplanlead]
          exact hmem

/-- C10: every emitted write action carries a strictly positive start and
targets a numbered list node lying on the leading spine of a root-level list
that has a predecessor in the filtered list sequence; applying the writes
rewrites each top-level block independently, leaves any block containing none
of the written keys unchanged, and — under the Lexical key-uniqueness
invariant — leaves every non-list top-level block and the entire subtree of
the first root-level list unchanged. -/
theorem writeConfinement (blocks : List LNode) :
    (∀ w ∈ computeOrderedListOrdinalContinuityNormalizations blocks,
      0 < w.2 ∧ ∃ (i : Nat) (b : LNode),
        (blocks.filter isListNode)[i + 1]? = some b ∧
        ((blocks.filter isListNode)[i]?).isSome = true ∧
        ∃ l ∈ (traverseEdge b .leading).lists,
          isNumberedList l = true ∧ getKey l = w.1) ∧
    applyWrites blocks
        (computeOrderedListOrdinalContinuityNormalizations blocks)
      = blocks.map
        (applyNode (computeOrderedListOrdinalContinuityNormalizations
          blocks)) ∧
    (∀ b : LNode,
      (∀ w ∈ computeOrderedListOrdinalContinuityNormalizations blocks,
        w.1 ∉ nodeKeys b) →
      applyNode (computeOrderedListOrdinalContinuityNormalizations blocks) b
        = b) ∧
    (WellKeyed blocks →
      (∀ b ∈ blocks, isListNode b = false →
        applyNode (computeOrderedListOrdinalContinuityNormalizations blocks)
          b = b) ∧
      (∀ b0, (blocks.filter isListNode)[0]? = some b0 →
        applyNode (computeOrderedListOrdinalContinuityNormalizations blocks)
          b0 = b0)) := by
  have hkey : ∀ w ∈ computeOrderedListOrdinalContinuityNormalizations blocks,
      ∃ (i : Nat) (b : LNode),
        (blocks.filter isListNode)[i + 1]? = some b ∧ w.1 ∈ nodeKeys b := by
    intro w hw
    obtain ⟨_, i, b, hb, _, l, hl, hlnum, hlk⟩ := write_origin blocks w hw
    have hbl : isListNode b = true := by
      have hbm : b ∈ blocks.filter isListNode := by
        obtain ⟨hlt, hget⟩ := List.getElem?_eq_some.mp hb
        rw [← hget]
        exact List.getElem_mem _
      exact (List.mem_filter.mp hbm).2
    obtain ⟨_, hk⟩ := spine_lists_keys (nodeSize b) b .leading (le_refl _)
      hbl l hl
    exact ⟨i, b, hb, by rw [← hlk]; exact hk⟩
  refine ⟨fun w hw => write_origin blocks w hw, applyWrites_eq_map _ _,
    fun b hb => applyNode_id _ b hb, ?_⟩
  intro hWK
  have hPW : List.Pairwise List.Disjoint (blocks.map nodeKeys) :=
    (List.nodup_flatten.mp hWK).2
  constructor
  · intro b hbm hbl
    apply applyNode_id
    intro w hwW hkb
    obtain ⟨i, bb, hbb, hwk⟩ := hkey w hwW
    have hbbl : isListNode bb = true := by
      have hm : bb ∈ blocks.filter isListNode := by
        obtain ⟨hlt, hget⟩ := List.getElem?_eq_some.mp hbb
        rw [← hget]
        exact List.getElem_mem _
      exact (List.mem_filter.mp hm).2
    have hbbm : bb ∈ blocks := by
      have hm : bb ∈ blocks.filter isListNode := by
        obtain ⟨hlt, hget⟩ := List.getElem?_eq_some.mp hbb
        rw [← hget]
        exact List.getElem_mem _
      exact (List.mem_filter.mp hm).1
    obtain ⟨jb, hjb⟩ := List.getElem?_of_mem hbm
    obtain ⟨jq, hjq⟩ := List.getElem?_of_mem hbbm
    obtain ⟨hjbl, hjbe⟩ := List.getElem?_eq_some.mp hjb
    obtain ⟨hjql, hjqe⟩ := List.getElem?_eq_some.mp hjq
    have hne : jb ≠ jq := by
      intro he
      subst he
      rw [hjbe] at hjqe
      subst hjqe
      rw [hbbl] at hbl
      exact Bool.noConfusion hbl
    have hpw := List.pairwise_iff_getElem.mp hPW
    rcases Nat.lt_or_ge jb jq with hlt | hge
    · have hd := hpw jb jq (by simpa using hjbl) (by simpa using hjql) hlt
      rw [List.getElem_map, List.getElem_map, hjbe, hjqe] at hd
      exact hd hkb hwk
    · have hlt2 : jq < jb := by omega
      have hd := hpw jq jb (by simpa using hjql) (by simpa using hjbl) hlt2
      rw [List.getElem_map, List.getElem_map, hjbe, hjqe] at hd
      exact hd.symm hkb hwk
  · intro b0 hb0
    apply applyNode_id
    intro w hwW hkb0
    obtain ⟨i, bb, hbb, hwk⟩ := hkey w hwW
    have hWKL : (((blocks.filter isListNode).map nodeKeys).flatten).Nodup :=
      (sublist_flatten ((blocks.filter_sublist).map nodeKeys)).nodup hWK
    have hPWL : List.Pairwise List.Disjoint
        ((blocks.filter isListNode).map nodeKeys) :=
      (List.nodup_flatten.mp hWKL).2
    obtain ⟨h0l, h0e⟩ := List.getElem?_eq_some.mp hb0
    obtain ⟨hbl, hbe⟩ := List.getElem?_eq_some.mp hbb
    have hpw := List.pairwise_iff_getElem.mp hPWL
    have hd := hpw 0 (i + 1) (by simpa using h0l) (by simpa using hbl)
      (by omega)
    rw [List.getElem_map, List.getElem_map, h0e, hbe] at hd
    exact hd hkb0 hwk

/-- Witness for `writeConfinement` on `docBCD`: the write `(6, 1)` targets a
numbered list on the leading spine of the second root list, and under the
(satisfied) key-uniqueness invariant the first root list `nodeB` is left
unchanged by the run's writes. -/
theorem writeConfinement_witness :
    (0 : Int) < ((6, 1) : WriteAction).2 ∧
    (∃ (i : Nat) (b : LNode),
      (docBCD.filter isListNode)[i + 1]? = some b ∧
      ((docBCD.filter isListNode)[i]?).isSome = true ∧
      ∃ l ∈ (traverseEdge b .leading).lists,
        isNumberedList l = true ∧ getKey l = ((6, 1) : WriteAction).1) ∧
    applyNode (computeOrderedListOrdinalContinuityNormalizations docBCD)
        nodeB
      = nodeB := by
  have h := writeConfinement docBCD
  have h1 := h.1 (6, 1) (by decide)
  have h4 := (h.2.2.2 (by unfold WellKeyed; decide)).2 nodeB rfl
  exact ⟨h1.1, h1.2, h4⟩

/-- An empty expected-starts mapping makes the boundary cold. -/
theorem evaluateListBoundary_cold_of_empty
    (previousSpine nextSpine : RootListSpines)
    (h : computeExpectedStartsByDepthForLink previousSpine nextSpine = []) :
    evaluateListBoundary previousSpine nextSpine = .cold := by
  rw [evaluateListBoundary_eq, h]
  rfl

/-- A hot boundary carries exactly the computed mapping, which is
nonempty. -/
theorem evaluateListBoundary_hot_inv (previousSpine nextSpine : RootListSpines)
    (m' : List (Nat × Int))
    (h : evaluateListBoundary previousSpine nextSpine = .hot m') :
    m' = computeExpectedStartsByDepthForLink previousSpine nextSpine ∧
      computeExpectedStartsByDepthForLink previousSpine nextSpine ≠ [] := by
  rw [evaluateListBoundary_eq] at h
  by_cases hE : (computeExpectedStartsByDepthForLink previousSpine
      nextSpine).isEmpty = true
  · rw [if_pos hE] at h
    exact absurd h (by simp)
  · rw [if_neg hE] at h
    refine ⟨?_, fun hq => hE (by rw [hq]; rfl)⟩
    by_cases hA : (computeExpectedStartsByDepthForLink previousSpine
        nextSpine).any (boundaryHotAtDepth nextSpine) = true
    · rw [if_pos hA] at h
      injection h with hh
      exact hh.symm
    · rw [if_neg hA] at h
      exact absurd h (by simp)

/-- The `index.tsx` plan's mapping equals the `part_000` expected-starts
computation (the two source files inline the same formula). -/
theorem deriveChainedOrdinalContinuityPlan_startsByDepth
    (previousSpine nextSpine : RootListSpines) :
    (deriveChainedOrdinalContinuityPlan previousSpine
        nextSpine).startsByDepth
      = computeExpectedStartsByDepthForLink previousSpine nextSpine := rfl

/-- Field values of the `index.tsx` plan. -/
theorem deriveChainedOrdinalContinuityPlan_fields
    (previousSpine nextSpine : RootListSpines) :
    (deriveChainedOrdinalContinuityPlan previousSpine
        nextSpine).leadingLists = nextSpine.leading.lists ∧
    (deriveChainedOrdinalContinuityPlan previousSpine
        nextSpine).linkedDepths =
      (if findDeepestLinkableDepth previousSpine.trailing.lists
          nextSpine.leading.lists
          (min previousSpine.trailing.lists.length
            nextSpine.leading.lists.length) < 0 then ([] : List Nat)
       else List.range ((findDeepestLinkableDepth
          previousSpine.trailing.lists nextSpine.leading.lists
          (min previousSpine.trailing.lists.length
            nextSpine.leading.lists.length)).toNat + 1)) ∧
    (deriveChainedOrdinalContinuityPlan previousSpine
        nextSpine).appliedDepths =
      (deriveChainedOrdinalContinuityPlan previousSpine
        nextSpine).linkedDepths :=
  ⟨rfl, rfl, rfl⟩

/-- Field values of the `part_000` hot plan. -/
theorem deriveChainedOrdinalContinuityPlanFromExpectedStarts_fields
    (nextSpine : RootListSpines) (m : List (Nat × Int)) :
    (deriveChainedOrdinalContinuityPlanFromExpectedStarts nextSpine
        m).startsByDepth = m ∧
    (deriveChainedOrdinalContinuityPlanFromExpectedStarts nextSpine
        m).appliedDepths = m.map Prod.fst ∧
    (deriveChainedOrdinalContinuityPlanFromExpectedStarts nextSpine
        m).linkedDepths = sortDepths (m.map Prod.fst) ∧
    (deriveChainedOrdinalContinuityPlanFromExpectedStarts nextSpine
        m).leadingLists = nextSpine.leading.lists :=
  ⟨rfl, rfl, rfl, rfl⟩

/-- A depth absent from the mapping produces no write. -/
theorem normalizationAtDepth_eq_none_of_lookup_none
    (plan : OrdinalContinuityPlan) (d : Nat)
    (h : List.lookup d plan.startsByDepth = none) :
    normalizationAtDepth plan d = none := by
  unfold normalizationAtDepth
  dsimp only
  rw [h]
  rw [if_pos]
  simp

/-- A plan with an empty mapping emits no writes. -/
theorem planNormalizations_of_empty (plan : OrdinalContinuityPlan)
    (h : plan.startsByDepth = []) : planNormalizations plan = [] := by
  rw [planNormalizations_eq_filterMap]
  rw [List.filterMap_eq_nil_iff]
  intro d _
  exact normalizationAtDepth_eq_none_of_lookup_none plan d (by rw [h]; rfl)

/-- Cascading from a plan with an empty mapping changes nothing (every lookup
misses — the `?? NaN` path). -/
theorem cascadeInto_of_empty_prev (previousPlan plan : OrdinalContinuityPlan)
    (h : previousPlan.startsByDepth = []) :
    cascadeInto previousPlan plan = plan := by
  have hmap : plan.startsByDepth.map (cascadeEntry previousPlan)
      = plan.startsByDepth := by
    have : ∀ e ∈ plan.startsByDepth, cascadeEntry previousPlan e = e := by
      intro e _
      unfold cascadeEntry
      rw [h]
      rfl
    rw [List.map_congr_left this]
    simp
  show { plan with
    startsByDepth := plan.startsByDepth.map (cascadeEntry previousPlan) } = _
  rw [hmap]

/-- With equal previous mappings whose keys are all applied, the cascade entry
rewriter of the two variants is the same function. -/
theorem cascadeEntry_congr (pa pb : OrdinalContinuityPlan)
    (hst : pa.startsByDepth = pb.startsByDepth)
    (hka : PlanKeysApplied pa) (hkb : PlanKeysApplied pb) (e : Nat × Int) :
    cascadeEntry pa e = cascadeEntry pb e := by
  unfold cascadeEntry
  rw [← hst]
  cases hl : List.lookup e.1 pa.startsByDepth with
  | none => rfl
  | some lastStart =>
    have hca : pa.appliedDepths.contains e.1 = true :=
      hka e.1 (by rw [hl]; rfl)
    have hcb : pb.appliedDepths.contains e.1 = true :=
      hkb e.1 (by rw [← hst, hl]; rfl)
    dsimp only
    rw [hca, hcb]

/-- Unfolding the `part_000` cascade on a `null` head. -/
theorem cascadeGo_cons_none (prev : Option OrdinalContinuityPlan)
    (rest : List (Option OrdinalContinuityPlan)) :
    cascadeGo prev (none :: rest) = none :: cascadeGo none rest := by
  cases prev <;> rfl

/-- Unfolding the `part_000` cascade on a plan head after a break. -/
theorem cascadeGo_cons_some_none (p : OrdinalContinuityPlan)
    (rest : List (Option OrdinalContinuityPlan)) :
    cascadeGo none (some p :: rest) = some p :: cascadeGo (some p) rest :=
  rfl

/-- Unfolding the `part_000` cascade on a plan head after a plan. -/
theorem cascadeGo_cons_some_some (pr p : OrdinalContinuityPlan)
    (rest : List (Option OrdinalContinuityPlan)) :
    cascadeGo (some pr) (some p :: rest) =
      some (cascadeInto pr p) :: cascadeGo (some (cascadeInto pr p)) rest :=
  rfl

/-- Unfolding the `index.tsx` cascade on its first plan. -/
theorem cascadeGoB_cons_none (p : OrdinalContinuityPlan)
    (rest : List OrdinalContinuityPlan) :
    cascadeGoB none (p :: rest) = p :: cascadeGoB (some p) rest := rfl

/-- Unfolding the `index.tsx` cascade on a later plan. -/
theorem cascadeGoB_cons_some (pr p : OrdinalContinuityPlan)
    (rest : List OrdinalContinuityPlan) :
    cascadeGoB (some pr) (p :: rest) =
      cascadeInto pr p :: cascadeGoB (some (cascadeInto pr p)) rest := rfl

/-- Inserting an element bounded below into a list keeps it in front. -/
theorem insertDepth_of_le (d : Nat) :
    ∀ l : List Nat, (∀ x ∈ l, d ≤ x) → insertDepth d l = d :: l
  | [], _ => rfl
  | x :: xs, h => by
    rw [insertDepth, if_pos (h x (List.mem_cons_self _ _))]

/-- Sorting an already-sorted key list is the identity (the source sorts the
keys of a map built in increasing key order). -/
theorem sortDepths_of_sorted :
    ∀ l : List Nat, l.Pairwise (· ≤ ·) → sortDepths l = l
  | [], _ => rfl
  | x :: xs, h => by
    rw [sortDepths, sortDepths_of_sorted xs (List.Pairwise.of_cons h)]
    exact insertDepth_of_le x xs (fun y hy =>
      (List.pairwise_cons.mp h).1 y hy)

/-- Keys of the expected-starts table: the depths of the range whose computed
start is positive. -/
theorem map_fst_table_filter (g : Nat → Int) :
    ∀ l : List Nat,
      (((l.map (fun x => (x, g x))).filter (fun e => 0 < e.2)).map Prod.fst)
        = l.filter (fun x => decide (0 < g x)) := by
  intro l
  induction l with
  | nil => rfl
  | cons x xs ih =>
    by_cases h : 0 < g x
    · simp only [List.map_cons, List.filter_cons]
      rw [if_pos (by simpa using h), if_pos (by simpa using h)]
      simp only [List.map_cons]
      rw [ih]
    · simp only [List.map_cons, List.filter_cons]
      rw [if_neg (by simpa using h), if_neg (by simpa using h)]
      exact ih

/-- A `filterMap` over a filtered list equals the `filterMap` over the whole
list when dropped elements produce nothing. -/
theorem filterMap_filter_of_none {W : Type} (q : Nat → Bool)
    (g : Nat → Option W) :
    ∀ l : List Nat, (∀ d ∈ l, q d = false → g d = none) →
      (l.filter q).filterMap g = l.filterMap g := by
  intro l
  induction l with
  | nil => intro _; rfl
  | cons x xs ih =>
    intro h
    by_cases hq : q x = true
    · rw [List.filter_cons, if_pos (by simpa using hq)]
      rw [List.filterMap_cons, List.filterMap_cons]
      cases g x with
      | none => exact ih (fun d hd => h d (List.mem_cons_of_mem _ hd))
      | some w =>
        rw [ih (fun d hd => h d (List.mem_cons_of_mem _ hd))]
    · have hqf : q x = false := by simpa using hq
      rw [List.filter_cons, if_neg (by simp [hqf])]
      rw [List.filterMap_cons, h x (List.mem_cons_self _ _) hqf]
      exact ih (fun d hd => h d (List.mem_cons_of_mem _ hd))

/-- The write a depth produces depends only on the plan's leading lists and
mapping. -/
theorem normalizationAtDepth_congr (qa qb : OrdinalContinuityPlan)
    (hst : qa.startsByDepth = qb.startsByDepth)
    (hld : qa.leadingLists = qb.leadingLists) (d : Nat) :
    normalizationAtDepth qa d = normalizationAtDepth qb d := by
  unfold normalizationAtDepth
  rw [hst, hld]

/-- Write equality of two plans with the same mapping and leading lists, one
iterating the sorted mapping keys and the other the full `0 .. n − 1` depth
range the keys were filtered from. -/
theorem writesEqRange (qa qb : OrdinalContinuityPlan) (n : Nat)
    (qfun : Nat → Bool)
    (hst : qa.startsByDepth = qb.startsByDepth)
    (hld : qa.leadingLists = qb.leadingLists)
    (hkeys : qa.startsByDepth.map Prod.fst = (List.range n).filter qfun)
    (hla : qa.linkedDepths = sortDepths (qa.startsByDepth.map Prod.fst))
    (hlb : qb.linkedDepths = List.range n) :
    planNormalizations qa = planNormalizations qb := by
  rw [planNormalizations_eq_filterMap, planNormalizations_eq_filterMap]
  have hfun : ∀ d : Nat, normalizationAtDepth qa d = normalizationAtDepth qb d :=
    normalizationAtDepth_congr qa qb hst hld
  have hsorted : (qa.startsByDepth.map Prod.fst).Pairwise (· ≤ ·) := by
    rw [hkeys]
    exact ((List.pairwise_lt_range n).filter _).imp Nat.le_of_lt
  rw [hla, sortDepths_of_sorted _ hsorted, hkeys, hlb]
  rw [List.filterMap_congr (fun d _ => hfun d)]
  apply filterMap_filter_of_none
  intro d hd hqd
  apply normalizationAtDepth_eq_none_of_lookup_none
  cases hl : List.lookup d qb.startsByDepth with
  | none => rfl
  | some v =>
    have hmem : d ∈ qb.startsByDepth.map Prod.fst :=
      (lookup_isSome_iff_mem_keys _ _).mp (by rw [hl]; rfl)
    rw [← hst, hkeys] at hmem
    have := (List.mem_filter.mp hmem).2
    rw [hqd] at this
    exact Bool.noConfusion this

/-- A plan whose applied set covers its mapping keys has all mapped depths
applied. -/
theorem planKeysApplied_of_keys_subset (p : OrdinalContinuityPlan)
    (h : ∀ d, d ∈ p.startsByDepth.map Prod.fst → d ∈ p.appliedDepths) :
    PlanKeysApplied p := by
  intro d hd
  exact List.elem_eq_true_of_mem (h d ((lookup_isSome_iff_mem_keys _ _).mp hd))

/-- Structure of a hot boundary's mapping: the deepest link depth is
non-negative and the mapping keys are the positive-start depths of the range
`0 .. deepestLinkDepth`. -/
theorem hot_mapping_structure (pr : RootListSpines × RootListSpines)
    (hne : computeExpectedStartsByDepthForLink pr.1 pr.2 ≠ []) :
    ∃ n : Nat,
      (computeExpectedStartsByDepthForLink pr.1 pr.2).map Prod.fst
        = (List.range n).filter
          (fun d => decide (0 < expectedStartAtDepth pr.1
            (findDeepestLinkableDepth pr.1.trailing.lists
              pr.2.leading.lists
              (min pr.1.trailing.lists.length pr.2.leading.lists.length))
            d)) ∧
      (deriveChainedOrdinalContinuityPlan pr.1 pr.2).linkedDepths
        = List.range n ∧
      (deriveChainedOrdinalContinuityPlan pr.1 pr.2).appliedDepths
        = List.range n := by
  have hDL : ¬findDeepestLinkableDepth pr.1.trailing.lists
      pr.2.leading.lists
      (min pr.1.trailing.lists.length pr.2.leading.lists.length) < 0 := by
    intro hlt
    apply hne
    rw [computeExpectedStartsByDepthForLink_eq, if_pos hlt]
    rfl
  refine ⟨(findDeepestLinkableDepth pr.1.trailing.lists pr.2.leading.lists
    (min pr.1.trailing.lists.length pr.2.leading.lists.length)).toNat + 1,
    ?_, ?_, ?_⟩
  · rw [computeExpectedStartsByDepthForLink_eq, if_neg hDL]
    exact map_fst_table_filter _ _
  · rw [(deriveChainedOrdinalContinuityPlan_fields pr.1 pr.2).2.1,
      if_neg hDL]
  · rw [(deriveChainedOrdinalContinuityPlan_fields pr.1 pr.2).2.2,
      (deriveChainedOrdinalContinuityPlan_fields pr.1 pr.2).2.1,
      if_neg hDL]

/-- Core of the amended variant equivalence: walking the same boundary
sequence with related cascade accumulators, the two variants emit the same
writes, provided every boundary has an empty mapping or is hot. -/
theorem cascadeChainWritesEq :
    ∀ (prs : List (RootListSpines × RootListSpines))
      (prevA prevB : Option OrdinalContinuityPlan),
      CascadeStateRel prevA prevB →
      (∀ pr ∈ prs,
        computeExpectedStartsByDepthForLink pr.1 pr.2 = [] ∨
        evaluateListBoundary pr.1 pr.2 =
          .hot (computeExpectedStartsByDepthForLink pr.1 pr.2)) →
      ((cascadeGo prevA (prs.map (fun pr =>
          match evaluateListBoundary pr.1 pr.2 with
          | .hot m =>
            some (deriveChainedOrdinalContinuityPlanFromExpectedStarts pr.2
              m)
          | .cold => none))).map optPlanNormalizations).flatten =
      ((cascadeGoB prevB (prs.map (fun pr =>
          deriveChainedOrdinalContinuityPlan pr.1 pr.2))).map
        planNormalizations).flatten := by
  intro prs
  induction prs with
  | nil =>
    intro prevA prevB _ _
    rfl
  | cons pr rest ih =>
    intro prevA prevB hInv hyp
    have hyprest : ∀ p ∈ rest,
        computeExpectedStartsByDepthForLink p.1 p.2 = [] ∨
        evaluateListBoundary p.1 p.2 =
          .hot (computeExpectedStartsByDepthForLink p.1 p.2) :=
      fun p hp => hyp p (List.mem_cons_of_mem _ hp)
    simp only [List.map_cons]
    rcases hyp pr (List.mem_cons_self _ _) with hempty | hhot
    · have hcold := evaluateListBoundary_cold_of_empty pr.1 pr.2 hempty
      have hfA : (match evaluateListBoundary pr.1 pr.2 with
          | .hot m =>
            some (deriveChainedOrdinalContinuityPlanFromExpectedStarts pr.2
              m)
          | .cold => none) = none := by rw [hcold]
      rw [hfA, cascadeGo_cons_none]
      have hB0 : (deriveChainedOrdinalContinuityPlan pr.1
          pr.2).startsByDepth = [] := by
        rw [deriveChainedOrdinalContinuityPlan_startsByDepth, hempty]
      cases prevB with
      | none =>
        rw [cascadeGoB_cons_none]
        simp only [List.map_cons, List.flatten_cons]
        rw [planNormalizations_of_empty _ hB0]
        rw [ih none (some _) (Or.inr (Or.inl ⟨rfl, _, rfl, hB0⟩)) hyprest]
        rfl
      | some pb =>
        rw [cascadeGoB_cons_some]
        have hB0' : (cascadeInto pb (deriveChainedOrdinalContinuityPlan
            pr.1 pr.2)).startsByDepth = [] := by
          show (deriveChainedOrdinalContinuityPlan pr.1
            pr.2).startsByDepth.map _ = []
          rw [hB0]
          rfl
        simp only [List.map_cons, List.flatten_cons]
        rw [planNormalizations_of_empty _ hB0']
        rw [ih none (some _) (Or.inr (Or.inl ⟨rfl, _, rfl, hB0'⟩)) hyprest]
        rfl
    · have hfA : (match evaluateListBoundary pr.1 pr.2 with
          | .hot m =>
            some (deriveChainedOrdinalContinuityPlanFromExpectedStarts pr.2
              m)
          | .cold => none) =
          some (deriveChainedOrdinalContinuityPlanFromExpectedStarts pr.2
            (computeExpectedStartsByDepthForLink pr.1 pr.2)) := by
        rw [hhot]
      have hne : computeExpectedStartsByDepthForLink pr.1 pr.2 ≠ [] :=
        (evaluateListBoundary_hot_inv pr.1 pr.2 _ hhot).2
      obtain ⟨n, hkeys, hlinkedB, happliedB⟩ := hot_mapping_structure pr hne
      set PA0 := deriveChainedOrdinalContinuityPlanFromExpectedStarts pr.2
        (computeExpectedStartsByDepthForLink pr.1 pr.2) with hPA0
      set PB0 := deriveChainedOrdinalContinuityPlan pr.1 pr.2 with hPB0
      have hstAB : PA0.startsByDepth = PB0.startsByDepth := by
        rw [hPA0, hPB0, deriveChainedOrdinalContinuityPlan_startsByDepth]
        rfl
      have hstA : PA0.startsByDepth
          = computeExpectedStartsByDepthForLink pr.1 pr.2 := rfl
      have hldAB : PA0.leadingLists = PB0.leadingLists := rfl
      have hlinkA : PA0.linkedDepths
          = sortDepths (PA0.startsByDepth.map Prod.fst) := rfl
      have hkeysA : PA0.startsByDepth.map Prod.fst
          = (List.range n).filter
            (fun d => decide (0 < expectedStartAtDepth pr.1
              (findDeepestLinkableDepth pr.1.trailing.lists
                pr.2.leading.lists
                (min pr.1.trailing.lists.length pr.2.leading.lists.length))
              d)) := by
        rw [hstA]
        exact hkeys
      have hkaA : PlanKeysApplied PA0 := by
        apply planKeysApplied_of_keys_subset
        intro d hd
        rw [hstA] at hd
        show d ∈ (computeExpectedStartsByDepthForLink pr.1
          pr.2).map Prod.fst
        exact hd
      have hkbB : PlanKeysApplied PB0 := by
        apply planKeysApplied_of_keys_subset
        intro d hd
        rw [← hstAB, hkeysA] at hd
        rw [happliedB]
        exact (List.mem_filter.mp hd).1
      rcases hInv with ⟨hA, hB⟩ | ⟨hA, pb, hB, hpbe⟩ |
        ⟨pa, pb, hA, hB, hst, hka, hkb⟩
      · subst hA
        subst hB
        rw [hfA, cascadeGo_cons_some_none, cascadeGoB_cons_none]
        simp only [List.map_cons, List.flatten_cons]
        rw [show optPlanNormalizations (some PA0)
          = planNormalizations PA0 from rfl]
        rw [writesEqRange PA0 PB0 n _ hstAB hldAB hkeysA hlinkA hlinkedB]
        rw [ih (some PA0) (some PB0)
          (Or.inr (Or.inr ⟨PA0, PB0, rfl, rfl, hstAB, hkaA, hkbB⟩))
          hyprest]
      · subst hA
        subst hB
        rw [hfA, cascadeGo_cons_some_none, cascadeGoB_cons_some,
          cascadeInto_of_empty_prev pb PB0 hpbe]
        simp only [List.map_cons, List.flatten_cons]
        rw [show optPlanNormalizations (some PA0)
          = planNormalizations PA0 from rfl]
        rw [writesEqRange PA0 PB0 n _ hstAB hldAB hkeysA hlinkA hlinkedB]
        rw [ih (some PA0) (some PB0)
          (Or.inr (Or.inr ⟨PA0, PB0, rfl, rfl, hstAB, hkaA, hkbB⟩))
          hyprest]
      · subst hA
        subst hB
        rw [hfA, cascadeGo_cons_some_some, cascadeGoB_cons_some]
        have hqst : (cascadeInto pa PA0).startsByDepth
            = (cascadeInto pb PB0).startsByDepth := by
          show PA0.startsByDepth.map (cascadeEntry pa)
            = PB0.startsByDepth.map (cascadeEntry pb)
          rw [← hstAB]
          exact List.map_congr_left
            (fun e _ => cascadeEntry_congr pa pb hst hka hkb e)
        have hqkeys : (cascadeInto pa PA0).startsByDepth.map Prod.fst
            = PA0.startsByDepth.map Prod.fst :=
          map_fst_map_entry _ (cascadeEntry_fst pa) _
        have hqld : (cascadeInto pa PA0).leadingLists
            = (cascadeInto pb PB0).leadingLists := hldAB
        have hqlinkA : (cascadeInto pa PA0).linkedDepths
            = sortDepths ((cascadeInto pa PA0).startsByDepth.map
              Prod.fst) := by
          rw [hqkeys]
          exact hlinkA
        have hqkeysA : (cascadeInto pa PA0).startsByDepth.map Prod.fst
            = (List.range n).filter
              (fun d => decide (0 < expectedStartAtDepth pr.1
                (findDeepestLinkableDepth pr.1.trailing.lists
                  pr.2.leading.lists
                  (min pr.1.trailing.lists.length
                    pr.2.leading.lists.length)) d)) := by
          rw [hqkeys]
          exact hkeysA
        have hqlinkB : (cascadeInto pb PB0).linkedDepths = List.range n :=
          hlinkedB
        have hqkaA : PlanKeysApplied (cascadeInto pa PA0) := by
          apply planKeysApplied_of_keys_subset
          intro d hd
          rw [hqkeys] at hd
          show d ∈ PA0.appliedDepths
          exact hd
        have hqkbB : PlanKeysApplied (cascadeInto pb PB0) := by
          apply planKeysApplied_of_keys_subset
          intro d hd
          rw [← hqst, hqkeysA] at hd
          show d ∈ PB0.appliedDepths
          rw [happliedB]
          exact (List.mem_filter.mp hd).1
        simp only [List.map_cons, List.flatten_cons]
        rw [show optPlanNormalizations (some (cascadeInto pa PA0))
          = planNormalizations (cascadeInto pa PA0) from rfl]
        rw [writesEqRange (cascadeInto pa PA0) (cascadeInto pb PB0) n _
          hqst hqld hqkeysA hqlinkA hqlinkB]
        rw [ih (some (cascadeInto pa PA0)) (some (cascadeInto pb PB0))
          (Or.inr (Or.inr ⟨cascadeInto pa PA0, cascadeInto pb PB0, rfl, rfl,
            hqst, hqkaA, hqkbB⟩)) hyprest]

/-- C6 (amended): the two plugin variants compute the same write actions on
every document in which each paired boundary either has an empty
expected-starts mapping or is evaluated hot (some mapped depth of the next
list's leading spine shows a finite start other than `1`).  Without this
restriction the variants disagree (`variantsDisagreeOnDocTwoFlat`): the
variant lacking boundary evaluation also writes at boundaries the other
variant classifies cold. -/
theorem variantEquivalenceOnHotChains (blocks : List LNode)
    (hyp : ∀ pr ∈ pairSoftAdjacentListEdges (traverseAllListEdges blocks),
      computeExpectedStartsByDepthForLink pr.1 pr.2 = [] ∨
      evaluateListBoundary pr.1 pr.2 =
        .hot (computeExpectedStartsByDepthForLink pr.1 pr.2)) :
    computeOrderedListOrdinalContinuityNormalizations blocks =
      computeOrderedListOrdinalContinuityNormalizationsB blocks :=
  cascadeChainWritesEq
    (pairSoftAdjacentListEdges (traverseAllListEdges blocks)) none none
    (Or.inl ⟨rfl, rfl⟩) hyp

/-- Witness for `variantEquivalenceOnHotChains`: on `docHotFlat`, whose single
boundary is hot, both variants compute the same writes. -/
theorem variantEquivalenceOnHotChains_witness :
    computeOrderedListOrdinalContinuityNormalizations docHotFlat =
      computeOrderedListOrdinalContinuityNormalizationsB docHotFlat :=
  variantEquivalenceOnHotChains docHotFlat (by decide)
